import Mathlib

/-!
Verification of the Flock2 spatial acceleration / neighbor-discovery pipeline
(`src/source/app_flock.cpp`, CPU backend — the correctness reference).

Embedding conventions:
* `float` values are embedded as exact rationals `ℚ`; `int` as `ℤ`; `uint`
  array indices as `ℕ`.  C arrays are embedded as total functions with
  pointwise update, or as `List`s where the code builds them sequentially.
* `GRID_UNDEF` (the undefined-cell sentinel) is embedded as `none` of an
  `Option` type; a cluster id of `-1` (unassigned) is kept as the integer
  `-1`, exactly as in the code.
* The field-of-view test `diri.Dot(dirj) > fovcos` normalizes floating-point
  vectors (square roots); it is abstracted as an opaque-to-the-model Boolean
  predicate parameter `fov : ℕ → ℕ → Bool`.  No theorem below depends on its
  value.
-/

namespace Flock2

/-- 3-component vector of rationals, embedding `Vec3F`. -/
structure Vec3 where
  x : ℚ
  y : ℚ
  z : ℚ
  deriving DecidableEq

/-- 3-component integer vector, embedding `Vec3I`. -/
structure Vec3Z where
  x : ℤ
  y : ℤ
  z : ℤ
  deriving DecidableEq

def Vec3.zero : Vec3 := ⟨0, 0, 0⟩

def Vec3.add (u v : Vec3) : Vec3 := ⟨u.x + v.x, u.y + v.y, u.z + v.z⟩

def Vec3.sub (u v : Vec3) : Vec3 := ⟨u.x - v.x, u.y - v.y, u.z - v.z⟩

/-- Componentwise product, embedding `Vec3F * Vec3F` of the vector library. -/
def Vec3.hadamard (u v : Vec3) : Vec3 := ⟨u.x * v.x, u.y * v.y, u.z * v.z⟩

/-- Scalar multiplication, embedding `Vec3F *= float`. -/
def Vec3.smul (q : ℚ) (v : Vec3) : Vec3 := ⟨q * v.x, q * v.y, q * v.z⟩

/-- Squared distance `dist.x*dist.x + dist.y*dist.y + dist.z*dist.z`
(`FindNeighbors`, line 1122). -/
def distSq (u v : Vec3) : ℚ :=
  (u.x - v.x) * (u.x - v.x) + (u.y - v.y) * (u.y - v.y) + (u.z - v.z) * (u.z - v.z)

/-- Embedding of the C cast `int(f)`: truncation toward zero. -/
def ratTrunc (q : ℚ) : ℤ := if 0 ≤ q then ⌊q⌋ else ⌈q⌉

/-- The fields of the `Accel` structure needed by the grid builder and the
bucketizer.  `gridScanMax`, `gridTotal`, `gridAdjCnt` and the adjacency table
are derived from these exactly as `InitializeGrid` derives them
(lines 801-845). -/
structure Accel where
  gridMin : Vec3
  gridDelta : Vec3
  gridResX : ℤ
  gridResY : ℤ
  gridResZ : ℤ
  gridSrch : ℤ
  deriving DecidableEq

/-- `m_Accel.gridTotal = gridRes.x * gridRes.y * gridRes.z` (line 801). -/
def Accel.gridTotal (a : Accel) : ℤ := a.gridResX * a.gridResY * a.gridResZ

/-- `m_Accel.gridScanMax = gridRes - Vec3I(gridSrch,gridSrch,gridSrch)`
(line 809), x component. -/
def Accel.gridScanMaxX (a : Accel) : ℤ := a.gridResX - a.gridSrch

def Accel.gridScanMaxY (a : Accel) : ℤ := a.gridResY - a.gridSrch

def Accel.gridScanMaxZ (a : Accel) : ℤ := a.gridResZ - a.gridSrch

/-- `m_Accel.gridAdjCnt = gridSrch^3` (line 808). -/
def Accel.gridAdjCnt (a : Accel) : ℤ := a.gridSrch * a.gridSrch * a.gridSrch

/-- The flat adjacency-offset table built by the triple loop at
lines 841-845: entries `(y*gridRes.z + z)*gridRes.x + x` for
`y, z, x` in `[0, gridSrch)`, `y` outermost, `x` innermost. -/
def Accel.gridAdjList (a : Accel) : List ℤ :=
  (((List.range a.gridSrch.toNat).map (fun y =>
    (List.range a.gridSrch.toNat).map (fun z =>
      (List.range a.gridSrch.toNat).map (fun x =>
        ((y : ℤ) * a.gridResZ + (z : ℤ)) * a.gridResX + (x : ℤ))))).map List.flatten).flatten

/-- `nadj = (gridRes.z + 1)*gridRes.x + 1` (`FindNeighbors`, line 1035). -/
def Accel.nadj (a : Accel) : ℤ := (a.gridResZ + 1) * a.gridResX + 1

/-- `gcf = (ppos - gridMin) * gridDelta; gc = Vec3I(int(gcf.x), int(gcf.y),
int(gcf.z))` (`InsertIntoGrid`, lines 899-900). -/
def cellCoord (a : Accel) (p : Vec3) : Vec3Z :=
  ⟨ratTrunc ((p.x - a.gridMin.x) * a.gridDelta.x),
   ratTrunc ((p.y - a.gridMin.y) * a.gridDelta.y),
   ratTrunc ((p.z - a.gridMin.z) * a.gridDelta.z)⟩

/-- `gs = (gc.y * gridRes.z + gc.z) * gridRes.x + gc.x` (line 901). -/
def flatCell (a : Accel) (g : Vec3Z) : ℤ := (g.y * a.gridResZ + g.z) * a.gridResX + g.x

/-- The cell assigned to one agent by `InsertIntoGrid` (lines 899-909):
the flattened index when the truncated coordinate is inside
`[1, gridScanMax]` on every axis, the `GRID_UNDEF` sentinel (`none`)
otherwise. -/
def insertCell (a : Accel) (p : Vec3) : Option ℤ :=
  if 1 ≤ (cellCoord a p).x ∧ (cellCoord a p).x ≤ a.gridScanMaxX
      ∧ 1 ≤ (cellCoord a p).y ∧ (cellCoord a p).y ≤ a.gridScanMaxY
      ∧ 1 ≤ (cellCoord a p).z ∧ (cellCoord a p).z ≤ a.gridScanMaxZ
  then some (flatCell a (cellCoord a p)) else none

/-- The count phase of `InsertIntoGrid` (lines 894-912): walks the agents in
order; an agent with a defined cell `gs` records `(some gs, AGRIDCNT[gs])`
(its cell and pre-increment intra-cell rank `FGNDX`) and increments
`AGRIDCNT[gs]`; an agent outside the range records `(none, 0)` (`FGNDX`
stays at the `memset` value 0).  Returns the per-agent table and the final
per-cell counters. -/
def insertLoop (a : Accel) : List Vec3 → (ℤ → ℕ) → List (Option ℤ × ℕ) × (ℤ → ℕ)
  | [], cnt => ([], cnt)
  | p :: ps, cnt =>
    match insertCell a p with
    | some gs =>
      let rest := insertLoop a ps (fun c => if c = gs then cnt c + 1 else cnt c)
      ((some gs, cnt gs) :: rest.1, rest.2)
    | none =>
      let rest := insertLoop a ps cnt
      ((none, 0) :: rest.1, rest.2)

/-- Per-agent `(FGCELL, FGNDX)` table after `InsertIntoGrid` (counters start
at the `memset` value 0). -/
def cellTable (a : Accel) (birds : List Vec3) : List (Option ℤ × ℕ) :=
  (insertLoop a birds (fun _ => 0)).1

/-- Final `AGRIDCNT` array after `InsertIntoGrid`, as a function. -/
def cntFun (a : Accel) (birds : List Vec3) : ℤ → ℕ :=
  (insertLoop a birds (fun _ => 0)).2

/-- `AGRIDCNT` restricted to the `gridTotal` real cells, as a list. -/
def cntList (a : Accel) (birds : List Vec3) : List ℕ :=
  (List.range a.gridTotal.toNat).map (fun (k : ℕ) => cntFun a birds (k : ℤ))

/-- The serial scan of `PrefixSumGrid` (lines 990-994):
`sum = 0; for n: mgoff[n] = sum; sum += mgcnt[n]`. -/
def scanSumFrom : List ℕ → ℕ → List ℕ
  | [], _ => []
  | c :: cs, s => s :: scanSumFrom cs (s + c)

/-- `AGRIDOFF` after `PrefixSumGrid`, as a list over the `gridTotal` cells. -/
def offList (a : Accel) (birds : List Vec3) : List ℕ :=
  scanSumFrom (cntList a birds) 0

/-- `AGRIDOFF` as a function (reads of `mgoff[c]`). -/
def offFun (a : Accel) (birds : List Vec3) : ℤ → ℕ :=
  fun c => (offList a birds).getD c.toNat 0

/-- The scatter phase of `PrefixSumGrid` (lines 1000-1011): `mgrid` starts
all `GRID_UNDEF` (`none`); each agent `j` with a defined cell is written to
slot `mgoff[cell] + FGNDX[j]`.  `j` is the running agent index, threaded so
that the `k`-th table entry corresponds to agent `j₀ + k`. -/
def scatterLoop (off : ℤ → ℕ) : List (Option ℤ × ℕ) → ℕ → (ℕ → Option ℕ) → ℕ → Option ℕ
  | [], _, g => g
  | (some c, r) :: rest, j, g =>
    scatterLoop off rest (j + 1) (fun s => if s = off c + r then some j else g s)
  | (none, _) :: rest, j, g => scatterLoop off rest (j + 1) g

/-- `AGRID` (the sorted-agent array) after `PrefixSumGrid`. -/
def masterGrid (a : Accel) (birds : List Vec3) : ℕ → Option ℕ :=
  scatterLoop (offFun a birds) (cellTable a birds) 0 (fun _ => none)

/-- Pointwise array/field update (`arr[i] = v`). -/
def fnUpdate {α : Type} (f : ℕ → α) (i : ℕ) (v : α) : ℕ → α :=
  fun n => if n = i then v else f n

/-- The clustering state of `FindNeighbors` / `AssignClusters`:
`max_cluster_id`, the per-bird `cluster_id` field (`-1` = unassigned), and
`cluster_assignment` (one member list per cluster id). -/
structure ClusterState where
  maxClusterId : ℤ
  cid : ℕ → ℤ
  assign : List (List ℕ)

/-- Lines 1077-1085: a bird with no cluster gets a fresh cluster id
(`max_cluster_id` incremented) and a fresh singleton member list is pushed. -/
def newClusterIfNone (i : ℕ) (st : ClusterState) : ClusterState :=
  if st.cid i = -1 then
    { maxClusterId := st.maxClusterId + 1,
      cid := fnUpdate st.cid i (st.maxClusterId + 1),
      assign := st.assign ++ [[i]] }
  else st

/-- Lines 1125-1142, the body guarded by the cluster-threshold test, for
scanning bird `i` and candidate `j`: if `j` is unassigned it joins `i`'s
cluster; if `j` is assigned a different cluster, every member of `j`'s
cluster is re-tagged to `i`'s cluster id, appended to `i`'s member list, and
`j`'s member list is cleared.  The C loop appends members of
`cluster_assignment.at(merge_from_id)` one by one while re-tagging; since
`merge_from_id ≠ merge_to_id` in this branch, the source list is unchanged
during the loop and the loop equals this batch update.  `vector::at` is
embedded as `getD` / `set` (indices are in bounds under the proved
invariants). -/
def clusterPairStep (i j : ℕ) (st : ClusterState) : ClusterState :=
  let st1 :=
    if st.cid j = -1 then
      { st with
        cid := fnUpdate st.cid j (st.cid i),
        assign := st.assign.set (st.cid i).toNat
          (st.assign.getD (st.cid i).toNat [] ++ [j]) }
    else st
  if st1.cid j ≠ st1.cid i then
    let mergeFrom := (st1.cid j).toNat
    let mergeTo := (st1.cid i).toNat
    let members := st1.assign.getD mergeFrom []
    { st1 with
      cid := fun n => if n ∈ members then (mergeTo : ℤ) else st1.cid n,
      assign := (st1.assign.set mergeTo
        (st1.assign.getD mergeTo [] ++ members)).set mergeFrom [] }
  else st1

/-- The per-agent topological-neighbor bookkeeping of `FindNeighbors`:
the fixed 16-entry arrays `sort_d_nbr` / `sort_j_nbr` (as total functions),
`sort_num`, and the bird's `r_nbrs` counter. -/
structure NbrState where
  sortD : ℕ → ℚ
  sortJ : ℕ → ℤ
  sortNum : ℕ
  rNbrs : ℕ

/-- The scan loop `for (k = 0; dsq > sort_d_nbr[k] && k < sort_num;) k++;`
(lines 1155-1156).  The fuel argument is `sort_num - k`, which bounds the
iterations exactly as the `k < sort_num` conjunct does; the final iteration
(`k = sort_num`) also reads `sort_d_nbr[k]` in C but stops regardless of the
value read, so the result does not depend on that read. -/
def findKFrom (sortD : ℕ → ℚ) (dsq : ℚ) : ℕ → ℕ → ℕ
  | 0, k => k
  | fuel + 1, k => if sortD k < dsq then findKFrom sortD dsq fuel (k + 1) else k

def findK (st : NbrState) (dsq : ℚ) : ℕ := findKFrom st.sortD dsq st.sortNum 0

/-- The shift loop `for (m = sort_num-1; m >= k; m--) arr[m+1] = arr[m];`
(lines 1162-1165): slots `k+1 .. top` receive the previous slot's original
value.  The loop runs `m` downward, so every slot is read before it is
overwritten and the loop equals this pointwise shift. -/
def shiftSeg {α : Type} (f : ℕ → α) (k top : ℕ) : ℕ → α :=
  fun idx => if k + 1 ≤ idx ∧ idx ≤ top then f (idx - 1) else f idx

/-- One bounded insertion (lines 1154-1172): find the insertion point `k`,
shift the tail up when `k ≠ sort_num`, write `(dsq, j)` at `k`, increment
`sort_num` and clamp it to `K = m_Params.neighbors`.  The `k ≤ sort_num`
guard is kept exactly as in the code (it always holds, since the scan loop
stops at `k = sort_num` at the latest). -/
def nbrInsert (K : ℕ) (st : NbrState) (j : ℕ) (dsq : ℚ) : NbrState :=
  let k := findK st dsq
  if k ≤ st.sortNum then
    let d1 := if k ≠ st.sortNum then shiftSeg st.sortD k st.sortNum else st.sortD
    let j1 := if k ≠ st.sortNum then shiftSeg st.sortJ k st.sortNum else st.sortJ
    { sortD := fnUpdate d1 k dsq,
      sortJ := fnUpdate j1 k (j : ℤ),
      sortNum := if st.sortNum + 1 > K then K else st.sortNum + 1,
      rNbrs := st.rNbrs }
  else st

/-- The indices of `sort_d_nbr` / `sort_j_nbr` read or written by one
insertion (lines 1155-1168): the scan loop reads slots `0 .. k` (it also
reads slot `k` when it stops there, including the stop at `k = sort_num`);
the shift writes slots `k+1 .. sort_num` (reading `k .. sort_num - 1`, a
subset of the slots already listed, when it runs); the insertion writes
slot `k`. -/
def nbrInsertTouched (st : NbrState) (dsq : ℚ) : List ℕ :=
  let k := findK st dsq
  List.range (k + 1)
    ++ (if k ≠ st.sortNum then List.range' (k + 1) (st.sortNum - k) else [])
    ++ [k]

/-- The bucket slot range of one cell: `cndx` from `AGRIDOFF[cell]` to
`AGRIDOFF[cell] + AGRIDCNT[cell]` exclusive (lines 1110-1112). -/
def bucketSlots (off cnt : ℤ → ℕ) (cell : ℤ) : List ℕ :=
  List.range' (off cell) (cnt cell)

/-- The candidate stream of one agent's cell walk (lines 1102-1117):
nothing if the agent's cell is `GRID_UNDEF`; otherwise, for each entry of
the adjacency table, the members of that cell's bucket range in order.
A slot whose value is `GRID_UNDEF` (`none` in the model) is skipped — in C
the sentinel `2147483647` fails the `j >= numPoints` test — and so are
`j >= numPoints` and `j == i` (`continue`s at lines 1116-1117). -/
def walkList (a : Accel) (off cnt : ℤ → ℕ) (grid : ℕ → Option ℕ) (numPoints : ℕ)
    (gcell : Option ℤ) (i : ℕ) : List ℕ :=
  match gcell with
  | none => []
  | some gs =>
    let base := gs - a.nadj
    (a.gridAdjList.map (fun adj =>
      ((bucketSlots off cnt (base + adj)).filterMap grid).filter
        (fun j => decide (j < numPoints) && decide (j ≠ i)))).flatten

/-- The simulation parameters consumed by `FindNeighbors`. -/
structure Params where
  neighbors : ℕ
  psmoothradius : ℚ
  sim_scale : ℚ
  cluster_threshold_dist : ℚ

/-- `rd2 = (psmoothradius*psmoothradius) / (sim_scale*sim_scale)`
(lines 1032-1034). -/
def Params.rd2 (P : Params) : ℚ :=
  (P.psmoothradius * P.psmoothradius) / (P.sim_scale * P.sim_scale)

/-- The squared cluster threshold
`cluster_threshold_dist * cluster_threshold_dist` (line 1124). -/
def Params.thr2 (P : Params) : ℚ :=
  P.cluster_threshold_dist * P.cluster_threshold_dist

/-- The body of the inner candidate loop (lines 1114-1179) for scanner `i`
and candidate `j`: compute `dsq`; run the clustering step when `dsq` is
below the squared cluster threshold; run the bounded insertion and count
`r_nbrs` when `dsq < rd2` and the field-of-view test passes. -/
def candidateStep (P : Params) (pos : ℕ → Vec3) (fov : ℕ → ℕ → Bool) (i : ℕ)
    (s : ClusterState × NbrState) (j : ℕ) : ClusterState × NbrState :=
  let dsq := distSq (pos i) (pos j)
  let cst := if dsq < P.thr2 then clusterPairStep i j s.1 else s.1
  let ns :=
    if dsq < P.rd2 then
      if fov i j then
        let ns1 := nbrInsert P.neighbors s.2 j dsq
        { ns1 with rNbrs := ns1.rNbrs + 1 }
      else s.2
    else s.2
  (cst, ns)

/-- The per-bird outputs of `FindNeighbors`: `ave_pos`, `ave_vel`,
`near_j`, `t_nbrs`, `r_nbrs`. -/
structure BirdOut where
  avePos : Vec3
  aveVel : Vec3
  nearJ : ℤ
  tNbrs : ℕ
  rNbrs : ℕ
  deriving DecidableEq

/-- The accumulation loop at lines 1184-1188:
`for (k=0; k < sort_num; k++) { ave_pos += pos[sort_j_nbr[k]]; ave_vel += … }`. -/
def aveLoop (pos vel : ℕ → Vec3) (ns : NbrState) : ℕ → Vec3 × Vec3
  | 0 => (Vec3.zero, Vec3.zero)
  | k + 1 =>
    let pr := aveLoop pos vel ns k
    (pr.1.add (pos (ns.sortJ k).toNat), pr.2.add (vel (ns.sortJ k).toNat))

/-- One iteration of the outer bird loop of `FindNeighbors`
(lines 1072-1196): allocate a cluster if the bird has none, reset
`sort_num` / `r_nbrs` / aggregates, fold the candidate stream, then compute
`near_j`, `t_nbrs` and the conditional averages
(`ave_pos *= 1.0f/sort_num` when `sort_num > 0`). -/
def processAgent (a : Accel) (P : Params) (pos vel : ℕ → Vec3) (fov : ℕ → ℕ → Bool)
    (numPoints : ℕ) (off cnt : ℤ → ℕ) (grid : ℕ → Option ℕ) (gcell : Option ℤ)
    (i : ℕ) (cst : ClusterState) (ns : NbrState) : ClusterState × NbrState × BirdOut :=
  let cst1 := newClusterIfNone i cst
  let ns1 : NbrState := { ns with sortNum := 0, rNbrs := 0 }
  let res := (walkList a off cnt grid numPoints gcell i).foldl (candidateStep P pos fov i) (cst1, ns1)
  let ns2 := res.2
  let sums := aveLoop pos vel ns2 ns2.sortNum
  let out : BirdOut :=
    { avePos := if 0 < ns2.sortNum then Vec3.smul (1 / (ns2.sortNum : ℚ)) sums.1 else sums.1,
      aveVel := if 0 < ns2.sortNum then Vec3.smul (1 / (ns2.sortNum : ℚ)) sums.2 else sums.2,
      nearJ := ns2.sortJ 0,
      tNbrs := ns2.sortNum,
      rNbrs := ns2.rNbrs }
  (res.1, ns2, out)

/-- The state after the reset loops of `FindNeighbors` (lines 1060-1069):
`max_cluster_id = -1`, all `cluster_id = -1`, `cluster_assignment` empty. -/
def initialClusterState : ClusterState :=
  { maxClusterId := -1, cid := fun _ => -1, assign := [] }

/-- `sort_d_nbr[0] = 1e5; sort_j_nbr[0] = -1;` (lines 1056-1057); the other
fifteen stack slots are uninitialized in C and modelled as `0` — the proofs
show they are never consulted before being written. -/
def initialNbrState : NbrState :=
  { sortD := fun n => if n = 0 then 100000 else 0,
    sortJ := fun n => if n = 0 then -1 else 0,
    sortNum := 0,
    rNbrs := 0 }

/-- One simulation context: acceleration grid configuration, parameters,
bird positions / velocities (bird `n` of the dense array has position
`pos n`), the abstracted field-of-view test, and the bird count. -/
structure SimCtx where
  acc : Accel
  prm : Params
  pos : ℕ → Vec3
  vel : ℕ → Vec3
  fov : ℕ → ℕ → Bool
  numPoints : ℕ

def SimCtx.birds (c : SimCtx) : List Vec3 := (List.range c.numPoints).map c.pos

def SimCtx.cells (c : SimCtx) : List (Option ℤ × ℕ) := cellTable c.acc c.birds

def SimCtx.cnt (c : SimCtx) : ℤ → ℕ := cntFun c.acc c.birds

def SimCtx.off (c : SimCtx) : ℤ → ℕ := offFun c.acc c.birds

def SimCtx.grid (c : SimCtx) : ℕ → Option ℕ := masterGrid c.acc c.birds

/-- The `FGCELL` value read for bird `i` (line 1103). -/
def SimCtx.gcell (c : SimCtx) (i : ℕ) : Option ℤ := ((c.cells).getD i (none, 0)).1

/-- Bird `i`'s candidate stream in this context. -/
def SimCtx.walk (c : SimCtx) (i : ℕ) : List ℕ :=
  walkList c.acc c.off c.cnt c.grid c.numPoints (c.gcell i) i

def SimCtx.agent (c : SimCtx) (i : ℕ) (cst : ClusterState) (ns : NbrState) :
    ClusterState × NbrState × BirdOut :=
  processAgent c.acc c.prm c.pos c.vel c.fov c.numPoints c.off c.cnt c.grid (c.gcell i) i cst ns

/-- The outer bird loop (line 1072), threading the clustering state and the
(stack-resident) sort arrays across birds and collecting each bird's
outputs. -/
def fnLoop (c : SimCtx) : List ℕ → ClusterState → NbrState → ClusterState × NbrState × List BirdOut
  | [], cst, ns => (cst, ns, [])
  | i :: rest, cst, ns =>
    let r := c.agent i cst ns
    let rr := fnLoop c rest r.1 r.2.1
    (rr.1, rr.2.1, r.2.2 :: rr.2.2)

/-- The whole CPU `FindNeighbors` pass, run after `InsertIntoGrid` and
`PrefixSumGrid` on the same positions. -/
def runFindNeighbors (c : SimCtx) : ClusterState × NbrState × List BirdOut :=
  fnLoop c (List.range c.numPoints) initialClusterState initialNbrState

/-- Modelled from the spec: the `Histogram` record (`cluster_id`,
`bird_cnt`) and the `operator>` consumed by
`std::sort(…, std::greater<>())` at line 1315 are declared in a header that
is not among the sources; §4.6 specifies the order as "sort descending by
`memberCount` (stable tie-break by original id)". -/
structure Histogram where
  cluster_id : ℤ
  bird_cnt : ℤ
  deriving DecidableEq

/-- Modelled from the spec: descending comparison on member count with
ties broken by the original (ascending) cluster id, per §4.6. -/
def histAbove (h1 h2 : Histogram) : Bool :=
  decide (h2.bird_cnt < h1.bird_cnt)
    || (decide (h1.bird_cnt = h2.bird_cnt) && decide (h1.cluster_id ≤ h2.cluster_id))

/-- Lines 1300-1313 of `CalculateClusters`: one histogram record per
cluster id, `bird_cnt` = member-list length. -/
def calcHistogram (assign : List (List ℕ)) : List Histogram :=
  (List.range assign.length).map
    (fun (i : ℕ) => { cluster_id := (i : ℤ), bird_cnt := ((assign.getD i []).length : ℤ) })

/-- Line 1315: the histogram sorted descending by member count. -/
def sortedHistogram (assign : List (List ℕ)) : List Histogram :=
  (calcHistogram assign).mergeSort histAbove

/-- Lines 1317-1322: `cluster_order.at(id)` = the rank of cluster `id` in
the sorted histogram.  Since the histogram holds each cluster id exactly
once, the rank is the index of `id`'s record in the sorted list. -/
def clusterOrder (assign : List (List ℕ)) (id : ℕ) : ℕ :=
  (sortedHistogram assign).findIdx (fun h => decide (h.cluster_id = (id : ℤ)))

/-- Modelled from the spec: `MAX_FLOCKS` is defined in a header not among
the sources; §4.6 fixes the top-N flock count as "N fixed, small, e.g. 8". -/
def MAX_FLOCKS : ℕ := 8

/-- The divisor `cluster_histogram.at(i).bird_cnt` applied unconditionally
by `UpdateFlockData` at line 1475 (`flock_centers[i] /= …`) for every slot
`i < MAX_FLOCKS`; `none` embeds `std::vector::at` throwing
`std::out_of_range` when the histogram has fewer than `MAX_FLOCKS`
records. -/
def flockCenterDivisor (hist : List Histogram) (i : ℕ) : Option ℤ :=
  (hist[i]?).map (fun h => h.bird_cnt)

/-! Derived views and specification-side notions used by the theorems. -/

/-- The per-agent cell assignments (`FGCELL`) as computed by the grid
builder, one entry per bird. -/
def cellList (a : Accel) (birds : List Vec3) : List (Option ℤ) :=
  birds.map (insertCell a)

/-- Number of agents of a list of cell values landing in cell `gc`. -/
def countCell (cl : List (Option ℤ)) (gc : ℤ) : ℕ :=
  cl.countP (fun o => decide (o = some gc))

/-- Number of agents with a defined (non-sentinel) cell. -/
def definedCount (cl : List (Option ℤ)) : ℕ :=
  cl.countP (fun o => o.isSome)

/-- Member list of cluster `k` (`cluster_assignment.at(k)`). -/
def memberList (st : ClusterState) (k : ℕ) : List ℕ := st.assign.getD k []

/-- The ClusterPartition invariant: ids are in range, each member list holds
exactly the birds tagged with its id, each assigned bird occurs in its own
list, and no list repeats a member.  Together these make the nonempty member
lists a set partition of the assigned birds. -/
def ClusterInv (n : ℕ) (st : ClusterState) : Prop :=
  (-1 ≤ st.maxClusterId) ∧
  (st.assign.length = (st.maxClusterId + 1).toNat) ∧
  (∀ x, st.cid x ≠ -1 → 0 ≤ st.cid x ∧ st.cid x ≤ st.maxClusterId ∧ x < n) ∧
  (∀ k x, x ∈ memberList st k → st.cid x = (k : ℤ)) ∧
  (∀ x, st.cid x ≠ -1 → x ∈ memberList st (st.cid x).toNat) ∧
  (∀ k, (memberList st k).Nodup)

/-- Connectivity (reflexive-symmetric-transitive closure) over an edge
relation: the connected components of the graph `r`. -/
inductive Conn (r : ℕ → ℕ → Prop) : ℕ → ℕ → Prop
  | base {x y : ℕ} : r x y → Conn r x y
  | refl (x : ℕ) : Conn r x x
  | symm {x y : ℕ} : Conn r x y → Conn r y x
  | trans {x y z : ℕ} : Conn r x y → Conn r y z → Conn r x z

/-- Adding one directed edge to a relation. -/
def addRel (r : ℕ → ℕ → Prop) (i j : ℕ) : ℕ → ℕ → Prop :=
  fun x y => r x y ∨ (x = i ∧ y = j)

/-- Adding the fan of edges from `i` to every element of `l`. -/
def fanRel (r : ℕ → ℕ → Prop) (i : ℕ) (l : List ℕ) : ℕ → ℕ → Prop :=
  fun x y => r x y ∨ (x = i ∧ y ∈ l)

/-- The invariant tying cluster ids to graph connectivity: two assigned
birds carry the same id exactly when they are connected by the edges
processed so far, and an unassigned bird is untouched by those edges. -/
def ConnInv (r : ℕ → ℕ → Prop) (st : ClusterState) : Prop :=
  (∀ x y, st.cid x ≠ -1 → st.cid y ≠ -1 → (st.cid x = st.cid y ↔ Conn r x y)) ∧
  (∀ x, st.cid x = -1 → ∀ y, ¬ r x y ∧ ¬ r y x)

/-- The candidates of bird `i`'s cell walk that pass the cluster-threshold
test — the pairs the walk feeds to the clustering step. -/
def SimCtx.fedList (c : SimCtx) (i : ℕ) : List ℕ :=
  (c.walk i).filter (fun j => decide (distSq (c.pos i) (c.pos j) < c.prm.thr2))

/-- The edges fed to the clustering step by the first `m` birds' walks. -/
def SimCtx.fedTo (c : SimCtx) (m : ℕ) : ℕ → ℕ → Prop :=
  fun x y => x < m ∧ y ∈ c.fedList x

/-- The proximity graph of the claim: both birds exist and their squared
distance is below the squared clustering threshold. -/
def SimCtx.proxRel (c : SimCtx) : ℕ → ℕ → Prop :=
  fun x y => x < c.numPoints ∧ y < c.numPoints ∧ distSq (c.pos x) (c.pos y) < c.prm.thr2

/-- The candidates of bird `i`'s cell walk that pass both the radius test
and the field-of-view test — the entries offered to the bounded insertion
list. -/
def SimCtx.qualList (c : SimCtx) (i : ℕ) : List ℕ :=
  (c.walk i).filter
    (fun j => decide (distSq (c.pos i) (c.pos j) < c.prm.rd2) && c.fov i j)

/-- The live region of `sort_d_nbr`: its first `sort_num` entries. -/
def NbrState.liveD (ns : NbrState) : List ℚ :=
  (List.range ns.sortNum).map ns.sortD

/-- The live region of `sort_j_nbr`, as bird indices. -/
def NbrState.liveJ (ns : NbrState) : List ℕ :=
  (List.range ns.sortNum).map (fun k => (ns.sortJ k).toNat)

/-- The `K` smallest values of a list, in ascending order. -/
def kSmallest (K : ℕ) (l : List ℚ) : List ℚ :=
  (l.mergeSort (fun x y => decide (x ≤ y))).take K

/-- Sum of a list of vectors (left fold of `+=` over zero). -/
def vecSum (l : List Vec3) : Vec3 := l.foldl Vec3.add Vec3.zero

/-- The bounded-insertion invariant of claim C5, for configured count `K`,
candidate distances `dval`, and the candidates `processed` so far: the list
length is `min K (number processed)`, the live distances are exactly the
`K` smallest processed distances in ascending order, and every live entry
is a processed candidate paired with its distance. -/
def NbrInv (K : ℕ) (dval : ℕ → ℚ) (processed : List ℕ) (ns : NbrState) : Prop :=
  ns.sortNum = min K processed.length ∧
  ns.liveD = kSmallest K (processed.map dval) ∧
  (∀ k, k < ns.sortNum → ∃ j ∈ processed, ns.sortJ k = (j : ℤ) ∧ ns.sortD k = dval j)

/-- The cluster-state component of the scan of bird `i` over candidates
`l`, starting from `cst` (the projection of the combined fold). -/
def clusterFold (i : ℕ) (cst : ClusterState) (l : List ℕ) : ClusterState :=
  l.foldl (fun s j => clusterPairStep i j s) cst

/-! ### Concrete configurations used for witnesses and counterexamples -/

/-- A concrete 5×5×5 acceleration grid with unit cells anchored at the
origin and search range 2 (kept cell window `[1, 3]` per axis). -/
def accT : Accel :=
  { gridMin := ⟨0, 0, 0⟩, gridDelta := ⟨1, 1, 1⟩,
    gridResX := 5, gridResY := 5, gridResZ := 5, gridSrch := 2 }

/-- Concrete parameters: up to 7 neighbors, interaction radius 1 at scale 1,
clustering threshold `3/2`. -/
def prmT : Params :=
  { neighbors := 7, psmoothradius := 1, sim_scale := 1, cluster_threshold_dist := 3/2 }

/-- Nine birds in the grid's kept window: birds 0, 2, 1 form a chain along
the x axis at unit spacing (below the 3/2 threshold pairwise only for
adjacent pairs); the six others sit isolated at the window's corners. -/
def posListT : List Vec3 :=
  [⟨1,1,1⟩, ⟨3,1,1⟩, ⟨2,1,1⟩, ⟨1,3,1⟩, ⟨3,3,1⟩, ⟨1,1,3⟩, ⟨3,1,3⟩, ⟨1,3,3⟩, ⟨3,3,3⟩]

/-- The nine-bird context: bird 2 merges bird 1's cluster into bird 0's,
leaving cluster 0 with an empty member list. -/
def ctxT : SimCtx :=
  { acc := accT, prm := prmT, pos := fun n => posListT.getD n ⟨0, 0, 0⟩,
    vel := fun _ => ⟨1, 0, 0⟩, fov := fun _ _ => true, numPoints := 9 }

/-- Two birds half a unit apart — well below the clustering threshold — both
landing in boundary cell 0, which the range test of `InsertIntoGrid` maps to
`GRID_UNDEF`. -/
def ctxU : SimCtx :=
  { acc := accT, prm := prmT,
    pos := fun n => ([⟨0, 0, 0⟩, ⟨1/2, 0, 0⟩] : List Vec3).getD n ⟨0, 0, 0⟩,
    vel := fun _ => ⟨1, 0, 0⟩, fov := fun _ _ => true, numPoints := 2 }

/-- The sorted histogram of `ctxT`'s clustering: seven live clusters, then
the emptied cluster 0 with `bird_cnt = 0` in slot `MAX_FLOCKS - 1 = 7`. -/
def histListT : List Histogram :=
  [⟨1, 3⟩, ⟨2, 1⟩, ⟨3, 1⟩, ⟨4, 1⟩, ⟨5, 1⟩, ⟨6, 1⟩, ⟨7, 1⟩, ⟨0, 0⟩]

/-! ### Lemmas about the count phase of `InsertIntoGrid` -/

theorem insertLoop_fst_length (a : Accel) (ps : List Vec3) (cnt : ℤ → ℕ) :
    (insertLoop a ps cnt).1.length = ps.length := by
  induction ps generalizing cnt with
  | nil => rfl
  | cons p ps ih => cases h : insertCell a p <;> simp [insertLoop, h, ih]

theorem insertLoop_fst_map (a : Accel) (ps : List Vec3) (cnt : ℤ → ℕ) :
    (insertLoop a ps cnt).1.map Prod.fst = ps.map (insertCell a) := by
  induction ps generalizing cnt with
  | nil => rfl
  | cons p ps ih => cases h : insertCell a p <;> simp [insertLoop, h, ih]

theorem insertLoop_snd (a : Accel) (ps : List Vec3) (cnt : ℤ → ℕ) (c : ℤ) :
    (insertLoop a ps cnt).2 c = cnt c + countCell (ps.map (insertCell a)) c := by
  induction ps generalizing cnt with
  | nil => simp [insertLoop, countCell]
  | cons p ps ih =>
    cases h : insertCell a p with
    | some gs =>
      simp only [insertLoop, h, ih, countCell, List.map_cons, List.countP_cons]
      by_cases hc : c = gs
      · subst hc; simp; omega
      · have hne : ¬ (some gs = some c) := by
          intro hcon; exact hc (Option.some.inj hcon).symm
        simp [hc, hne]
    | none =>
      simp only [insertLoop, h, ih, countCell, List.map_cons, List.countP_cons]
      simp

theorem insertLoop_ndx (a : Accel) (ps : List Vec3) (cnt : ℤ → ℕ) (n : ℕ) (gs : ℤ) (r : ℕ) :
    (insertLoop a ps cnt).1[n]? = some (some gs, r) →
    r = cnt gs + countCell ((ps.take n).map (insertCell a)) gs := by
  induction ps generalizing cnt n with
  | nil => intro h; simp [insertLoop] at h
  | cons p ps ih =>
    intro h
    cases hc : insertCell a p with
    | some gs0 =>
      simp only [insertLoop, hc] at h
      cases n with
      | zero =>
        simp at h
        obtain ⟨h1, h2⟩ := h
        subst h1
        simp [← h2, countCell]
      | succ n =>
        simp only [List.getElem?_cons_succ] at h
        have hr := ih (fun c => if c = gs0 then cnt c + 1 else cnt c) n h
        rw [hr]
        simp only [List.take_succ_cons, List.map_cons, countCell, List.countP_cons, hc]
        by_cases hce : gs = gs0
        · subst hce; simp; omega
        · have hne : ¬ ((some gs0 : Option ℤ) = some gs) := by
            intro hcon; exact hce (Option.some.inj hcon).symm
          simp [hce, hne]
    | none =>
      simp only [insertLoop, hc] at h
      cases n with
      | zero => simp at h
      | succ n =>
        simp only [List.getElem?_cons_succ] at h
        have hr := ih cnt n h
        rw [hr]
        simp [List.take_succ_cons, List.map_cons, countCell, List.countP_cons, hc]

theorem cellTable_length (a : Accel) (birds : List Vec3) :
    (cellTable a birds).length = birds.length :=
  insertLoop_fst_length a birds _

theorem cellTable_fst (a : Accel) (birds : List Vec3) (n : ℕ) :
    ((cellTable a birds)[n]?).map Prod.fst = (cellList a birds)[n]? := by
  have h := insertLoop_fst_map a birds (fun _ => 0)
  have : ((cellTable a birds).map Prod.fst)[n]? = (cellList a birds)[n]? := by
    rw [cellTable, h]; rfl
  rw [← this, List.getElem?_map]

theorem cntFun_eq (a : Accel) (birds : List Vec3) (c : ℤ) :
    cntFun a birds c = countCell (cellList a birds) c := by
  have := insertLoop_snd a birds (fun _ => 0) c
  simpa [cntFun, cellList] using this

theorem cellTable_ndx (a : Accel) (birds : List Vec3) (n : ℕ) (gs : ℤ) (r : ℕ) :
    (cellTable a birds)[n]? = some (some gs, r) →
    r = countCell ((cellList a birds).take n) gs := by
  intro h
  have := insertLoop_ndx a birds (fun _ => 0) n gs r h
  simpa [cellList, List.map_take] using this

/-! ### Lemmas about the serial scan of `PrefixSumGrid` -/

theorem scanSumFrom_length (l : List ℕ) (s : ℕ) : (scanSumFrom l s).length = l.length := by
  induction l generalizing s with
  | nil => rfl
  | cons c cs ih => simp [scanSumFrom, ih]

theorem scanSumFrom_get? (l : List ℕ) (s : ℕ) (n : ℕ) (h : n < l.length) :
    (scanSumFrom l s)[n]? = some (s + (l.take n).sum) := by
  induction l generalizing s n with
  | nil => simp at h
  | cons c cs ih =>
    cases n with
    | zero => simp [scanSumFrom]
    | succ n =>
      have hn : n < cs.length := by simpa using h
      simp [scanSumFrom, ih (s + c) n hn, List.take_succ_cons, Nat.add_assoc]

theorem cntList_length (a : Accel) (birds : List Vec3) :
    (cntList a birds).length = a.gridTotal.toNat := by
  rw [cntList, List.length_map, List.length_range]

theorem offList_length (a : Accel) (birds : List Vec3) :
    (offList a birds).length = a.gridTotal.toNat := by
  rw [offList, scanSumFrom_length, cntList_length]

theorem offFun_eq (a : Accel) (birds : List Vec3) (c : ℤ) (h0 : 0 ≤ c) (h : c < a.gridTotal) :
    offFun a birds c = ((cntList a birds).take c.toNat).sum := by
  have hc : c.toNat < (cntList a birds).length := by
    rw [cntList_length]; omega
  have hs := scanSumFrom_get? (cntList a birds) 0 c.toNat hc
  simp only [offFun, offList]
  rw [List.getD_eq_getElem?_getD, hs]
  simp

theorem cntList_get (a : Accel) (birds : List Vec3) (k : ℕ) (h : (k : ℤ) < a.gridTotal) :
    (cntList a birds)[k]? = some (cntFun a birds (k : ℤ)) := by
  have hk : k < a.gridTotal.toNat := by omega
  simp [cntList, List.getElem?_map, List.getElem?_range, hk]

theorem listMapRangeSum (f : ℕ → ℕ) (n : ℕ) :
    ((List.range n).map f).sum = ∑ k in Finset.range n, f k := by
  induction n with
  | zero => simp
  | succ n ih =>
    rw [List.range_succ, List.map_append, List.sum_append, Finset.sum_range_succ, ih]
    simp

theorem countCell_cons (o : Option ℤ) (l : List (Option ℤ)) (gc : ℤ) :
    countCell (o :: l) gc = countCell l gc + (if o = some gc then 1 else 0) := by
  simp [countCell, List.countP_cons]

theorem sum_countCell (cl : List (Option ℤ)) (N : ℕ)
    (hin : ∀ gc : ℤ, (some gc) ∈ cl → 0 ≤ gc ∧ gc < (N : ℤ)) :
    (∑ k in Finset.range N, countCell cl (k : ℤ)) = definedCount cl := by
  induction cl with
  | nil => simp [countCell, definedCount]
  | cons o l ih =>
    have hin' : ∀ gc : ℤ, some gc ∈ l → 0 ≤ gc ∧ gc < (N : ℤ) :=
      fun gc h => hin gc (List.mem_cons_of_mem _ h)
    have hstep : ∀ k : ℕ, countCell (o :: l) (k : ℤ)
        = countCell l (k : ℤ) + (if o = some (k : ℤ) then 1 else 0) :=
      fun k => countCell_cons o l (k : ℤ)
    calc (∑ k in Finset.range N, countCell (o :: l) (k : ℤ))
        = ∑ k in Finset.range N,
            (countCell l (k : ℤ) + (if o = some (k : ℤ) then 1 else 0)) := by
          exact Finset.sum_congr rfl (fun k _ => hstep k)
      _ = (∑ k in Finset.range N, countCell l (k : ℤ))
            + ∑ k in Finset.range N, (if o = some (k : ℤ) then 1 else 0) := by
          rw [Finset.sum_add_distrib]
      _ = definedCount l + ∑ k in Finset.range N, (if o = some (k : ℤ) then 1 else 0) := by
          rw [ih hin']
      _ = definedCount (o :: l) := by
          cases o with
          | none => simp [definedCount, List.countP_cons]
          | some gc =>
            obtain ⟨h0, hN⟩ := hin gc (List.mem_cons_self _ _)
            have hsum : (∑ k in Finset.range N, (if (some gc : Option ℤ) = some (k : ℤ) then 1 else 0)) = 1 := by
              have hcong : ∀ k ∈ Finset.range N,
                  (if (some gc : Option ℤ) = some (k : ℤ) then 1 else 0)
                    = (if k = gc.toNat then 1 else 0) := by
                intro k _
                by_cases hk : k = gc.toNat
                · subst hk
                  simp [Int.toNat_of_nonneg h0]
                · have : ¬ ((some gc : Option ℤ) = some (k : ℤ)) := by
                    intro hcon
                    have := Option.some.inj hcon
                    omega
                  simp [hk, this]
              rw [Finset.sum_congr rfl hcong, Finset.sum_ite_eq' (Finset.range N)]
              have : gc.toNat ∈ Finset.range N := by
                simp only [Finset.mem_range]
                omega
              simp [this]
            rw [hsum]
            simp [definedCount, List.countP_cons]

/-- A cell produced by `InsertIntoGrid`'s range test is a real cell:
nonnegative and below `gridTotal` (uses `gridSrch ≥ 2`, established by the
clamp at line 807). -/
theorem insertCell_bounds (a : Accel) (p : Vec3) (gs : ℤ) (h2 : 2 ≤ a.gridSrch)
    (h : insertCell a p = some gs) : 0 ≤ gs ∧ gs < a.gridTotal := by
  unfold insertCell at h
  split_ifs at h with hcond
  · obtain ⟨hx1, hx2, hy1, hy2, hz1, hz2⟩ := hcond
    have hgs : flatCell a (cellCoord a p) = gs := Option.some.inj h
    set x := (cellCoord a p).x with hx
    set y := (cellCoord a p).y with hy
    set z := (cellCoord a p).z with hz
    set X := a.gridResX with hX
    set Y := a.gridResY with hY
    set Z := a.gridResZ with hZ
    have hXx : x ≤ X - 2 := by
      have := a.gridScanMaxX
      simp only [Accel.gridScanMaxX] at hx2
      omega
    have hYy : y ≤ Y - 2 := by
      simp only [Accel.gridScanMaxY] at hy2
      omega
    have hZz : z ≤ Z - 2 := by
      simp only [Accel.gridScanMaxZ] at hz2
      omega
    have hX3 : 3 ≤ X := by
      simp only [Accel.gridScanMaxX] at hx2
      omega
    have hY3 : 3 ≤ Y := by
      simp only [Accel.gridScanMaxY] at hy2
      omega
    have hZ3 : 3 ≤ Z := by
      simp only [Accel.gridScanMaxZ] at hz2
      omega
    have hflat : gs = (y * Z + z) * X + x := by
      rw [← hgs]; rfl
    have hM1 : Z + 1 ≤ y * Z + z := by nlinarith
    have hM2 : y * Z + z ≤ (Y - 1) * Z - 2 := by nlinarith
    constructor
    · have hpos : 0 ≤ (y * Z + z) * X + x := by nlinarith
      rw [hflat]; exact hpos
    · have hlt : (y * Z + z) * X + x < X * Y * Z := by nlinarith
      have hTot : a.gridTotal = X * Y * Z := rfl
      rw [hflat, hTot]; exact hlt

theorem cellList_bounds (a : Accel) (birds : List Vec3) (h2 : 2 ≤ a.gridSrch) :
    ∀ gc : ℤ, (some gc) ∈ cellList a birds → 0 ≤ gc ∧ gc < a.gridTotal := by
  intro gc hmem
  simp only [cellList, List.mem_map] at hmem
  obtain ⟨p, _, hp⟩ := hmem
  exact insertCell_bounds a p gc h2 hp

theorem cntList_sum (a : Accel) (birds : List Vec3) (h2 : 2 ≤ a.gridSrch) :
    (cntList a birds).sum = definedCount (cellList a birds) := by
  have hb := cellList_bounds a birds h2
  have hb' : ∀ gc : ℤ, (some gc) ∈ cellList a birds → 0 ≤ gc ∧ gc < (a.gridTotal.toNat : ℤ) := by
    intro gc hm
    have := hb gc hm
    omega
  calc (cntList a birds).sum
      = ∑ k in Finset.range a.gridTotal.toNat, cntFun a birds (k : ℤ) := by
        rw [cntList, listMapRangeSum]
    _ = ∑ k in Finset.range a.gridTotal.toNat, countCell (cellList a birds) (k : ℤ) := by
        exact Finset.sum_congr rfl (fun k _ => cntFun_eq a birds (k : ℤ))
    _ = definedCount (cellList a birds) := sum_countCell _ _ hb'

theorem offFun_succ (a : Accel) (birds : List Vec3) (c : ℤ) (h0 : 0 ≤ c)
    (h : c + 1 < a.gridTotal) :
    offFun a birds (c + 1) = offFun a birds c + cntFun a birds c := by
  have h1 : offFun a birds (c + 1) = ((cntList a birds).take (c + 1).toNat).sum :=
    offFun_eq a birds (c + 1) (by omega) h
  have h2 : offFun a birds c = ((cntList a birds).take c.toNat).sum :=
    offFun_eq a birds c h0 (by omega)
  have hts : (c + 1).toNat = c.toNat + 1 := by omega
  have hget : (cntList a birds)[c.toNat]? = some (cntFun a birds c) := by
    have := cntList_get a birds c.toNat (by omega)
    rwa [Int.toNat_of_nonneg h0] at this
  rw [h1, h2, hts, List.take_succ, List.sum_append, hget]
  simp

/-- Claim C2: the per-cell offsets computed by `PrefixSumGrid` form the
exclusive prefix sum of the per-cell counts: `offset[0] = 0`,
`offset[c+1] = offset[c] + count[c]` for every cell, and the offset of the
last cell plus its count equals the number of agents whose cell is defined
(not the `GRID_UNDEF` sentinel). -/
theorem C2_offsets_exclusive_scan (a : Accel) (birds : List Vec3)
    (h2 : 2 ≤ a.gridSrch) (hT : 0 < a.gridTotal) :
    (offList a birds)[0]? = some 0 ∧
    (∀ c : ℤ, 0 ≤ c → c + 1 < a.gridTotal →
      offFun a birds (c + 1) = offFun a birds c + cntFun a birds c) ∧
    offFun a birds (a.gridTotal - 1) + cntFun a birds (a.gridTotal - 1)
      = definedCount (cellList a birds) := by
  refine ⟨?_, ?_, ?_⟩
  · have hlen : 0 < (cntList a birds).length := by
      rw [cntList_length]; omega
    have := scanSumFrom_get? (cntList a birds) 0 0 hlen
    simpa [offList] using this
  · intro c hc0 hc1
    exact offFun_succ a birds c hc0 hc1
  · have hoff : offFun a birds (a.gridTotal - 1)
        = ((cntList a birds).take (a.gridTotal - 1).toNat).sum :=
      offFun_eq a birds _ (by omega) (by omega)
    have hget : (cntList a birds)[(a.gridTotal - 1).toNat]? = some (cntFun a birds (a.gridTotal - 1)) := by
      have := cntList_get a birds (a.gridTotal - 1).toNat (by omega)
      rwa [Int.toNat_of_nonneg (by omega)] at this
    have htake : (cntList a birds).take ((a.gridTotal - 1).toNat + 1) = cntList a birds := by
      apply List.take_of_length_le
      rw [cntList_length]
      omega
    have hsum : ((cntList a birds).take ((a.gridTotal - 1).toNat + 1)).sum
        = ((cntList a birds).take (a.gridTotal - 1).toNat).sum + cntFun a birds (a.gridTotal - 1) := by
      rw [List.take_succ, List.sum_append, hget]
      simp
    rw [hoff]
    have := cntList_sum a birds h2
    rw [htake] at hsum
    omega

/-! ### Lemmas about the scatter phase of `PrefixSumGrid` -/

theorem scatterLoop_result (off : ℤ → ℕ) (cl : List (Option ℤ × ℕ)) (j0 : ℕ)
    (g : ℕ → Option ℕ) (s : ℕ) (v : ℕ) :
    scatterLoop off cl j0 g s = some v →
    (∃ m gs r, cl[m]? = some (some gs, r) ∧ off gs + r = s ∧ v = j0 + m) ∨ g s = some v := by
  induction cl generalizing j0 g with
  | nil => intro h; exact Or.inr h
  | cons e rest ih =>
    intro h
    obtain ⟨oc, r⟩ := e
    cases oc with
    | some gs =>
      simp only [scatterLoop] at h
      rcases ih (j0 + 1) _ h with hw | hg
      · obtain ⟨m, gs', r', hm, hoff, hv⟩ := hw
        exact Or.inl ⟨m + 1, gs', r', by simpa using hm, hoff, by omega⟩
      · by_cases hs : s = off gs + r
        · subst hs
          simp at hg
          exact Or.inl ⟨0, gs, r, by simp, rfl, by omega⟩
        · right
          simpa [hs] using hg
    | none =>
      simp only [scatterLoop] at h
      rcases ih (j0 + 1) _ h with hw | hg
      · obtain ⟨m, gs', r', hm, hoff, hv⟩ := hw
        exact Or.inl ⟨m + 1, gs', r', by simpa using hm, hoff, by omega⟩
      · exact Or.inr hg

theorem masterGrid_result (a : Accel) (birds : List Vec3) (s : ℕ) (v : ℕ) :
    masterGrid a birds s = some v →
    ∃ gs r, (cellTable a birds)[v]? = some (some gs, r) ∧ offFun a birds gs + r = s := by
  intro h
  rcases scatterLoop_result (offFun a birds) (cellTable a birds) 0 (fun _ => none) s v h with hw | hg
  · obtain ⟨m, gs, r, hm, hoff, hv⟩ := hw
    refine ⟨gs, r, ?_, hoff⟩
    have : v = m := by omega
    subst this
    exact hm
  · exact absurd hg (by simp)

theorem scatterLoop_untouched (off : ℤ → ℕ) (cl : List (Option ℤ × ℕ)) (j0 : ℕ)
    (g : ℕ → Option ℕ) (s : ℕ)
    (h : ∀ (m : ℕ) (gs : ℤ) (r : ℕ), cl[m]? = some (some gs, r) → off gs + r ≠ s) :
    scatterLoop off cl j0 g s = g s := by
  induction cl generalizing j0 g with
  | nil => rfl
  | cons e rest ih =>
    obtain ⟨oc, r⟩ := e
    cases oc with
    | some gs =>
      simp only [scatterLoop]
      rw [ih (j0 + 1) (fun s' => if s' = off gs + r then some j0 else g s')
        (fun m gs' r' hm => h (m + 1) gs' r' (by simpa using hm))]
      have hne : off gs + r ≠ s := h 0 gs r (by simp)
      simp [Ne.symm hne]
    | none =>
      simp only [scatterLoop]
      exact ih (j0 + 1) _ (fun m gs' r' hm => h (m + 1) gs' r' (by simpa using hm))

theorem scatterLoop_write (off : ℤ → ℕ) (cl : List (Option ℤ × ℕ)) (j0 : ℕ)
    (g : ℕ → Option ℕ) (m : ℕ) (gs : ℤ) (r : ℕ)
    (hm : cl[m]? = some (some gs, r))
    (hdist : ∀ m' gs' r', m' ≠ m → cl[m']? = some (some gs', r') → off gs' + r' ≠ off gs + r) :
    scatterLoop off cl j0 g (off gs + r) = some (j0 + m) := by
  induction cl generalizing j0 g m with
  | nil => simp at hm
  | cons e rest ih =>
    cases m with
    | zero =>
      rw [List.getElem?_cons_zero] at hm
      have he : e = (some gs, r) := Option.some.inj hm
      subst he
      simp only [scatterLoop]
      rw [scatterLoop_untouched _ _ _ _ _
        (fun m' gs' r' hm' => hdist (m' + 1) gs' r' (by omega) (by simpa using hm'))]
      simp
    | succ m =>
      simp only [List.getElem?_cons_succ] at hm
      obtain ⟨oc, rr⟩ := e
      cases oc with
      | some gsh =>
        simp only [scatterLoop]
        have hrec := ih (j0 + 1) (fun s => if s = off gsh + rr then some j0 else g s) m hm
          (fun m' gs' r' hne hm' => hdist (m' + 1) gs' r' (by omega) (by simpa using hm'))
        rw [hrec]
        congr 1
        omega
      | none =>
        simp only [scatterLoop]
        have hrec := ih (j0 + 1) g m hm
          (fun m' gs' r' hne hm' => hdist (m' + 1) gs' r' (by omega) (by simpa using hm'))
        rw [hrec]
        congr 1
        omega

theorem sum_take_mono (l : List ℕ) (m n : ℕ) (h : m ≤ n) :
    (l.take m).sum ≤ (l.take n).sum := by
  have hn : n = m + (n - m) := by omega
  rw [hn, List.take_add, List.sum_append]
  omega

theorem countCell_take_succ (l : List (Option ℤ)) (m : ℕ) (gs : ℤ)
    (h : l[m]? = some (some gs)) :
    countCell (l.take (m + 1)) gs = countCell (l.take m) gs + 1 := by
  rw [List.take_succ, h]
  simp [countCell, List.countP_append]

theorem countCell_take_lt (l : List (Option ℤ)) (m : ℕ) (gs : ℤ)
    (h : l[m]? = some (some gs)) :
    countCell (l.take m) gs < countCell l gs := by
  have h1 : countCell (l.take (m + 1)) gs ≤ countCell l gs :=
    List.Sublist.countP_le _ (List.take_sublist _ _)
  have h2 := countCell_take_succ l m gs h
  omega

theorem countCell_take_le (l : List (Option ℤ)) (m n : ℕ) (gs : ℤ) (h : m ≤ n) :
    countCell (l.take m) gs ≤ countCell (l.take n) gs := by
  have hn : n = m + (n - m) := by omega
  rw [hn, List.take_add]
  simp only [countCell, List.countP_append]
  omega

/-- Offsets of distinct cells respect the cumulative layout:
everything of an earlier cell lies strictly before the later cell's base. -/
theorem off_cnt_le_off (a : Accel) (birds : List Vec3) (gs gc : ℤ)
    (h0 : 0 ≤ gs) (hlt : gs < gc) (hgcT : gc < a.gridTotal) :
    offFun a birds gs + cntFun a birds gs ≤ offFun a birds gc := by
  rw [offFun_eq a birds gs h0 (by omega), offFun_eq a birds gc (by omega) hgcT]
  have hget : (cntList a birds)[gs.toNat]? = some (cntFun a birds gs) := by
    have := cntList_get a birds gs.toNat (by omega)
    rwa [Int.toNat_of_nonneg h0] at this
  have hstep : ((cntList a birds).take (gs.toNat + 1)).sum
      = ((cntList a birds).take gs.toNat).sum + cntFun a birds gs := by
    rw [List.take_succ, List.sum_append, hget]
    simp
  have hmono := sum_take_mono (cntList a birds) (gs.toNat + 1) gc.toNat (by omega)
  omega

theorem cellTable_entry (a : Accel) (birds : List Vec3) (j : ℕ) (gc : ℤ)
    (h : (cellList a birds)[j]? = some (some gc)) :
    (cellTable a birds)[j]? = some (some gc, countCell ((cellList a birds).take j) gc) := by
  have hfst := cellTable_fst a birds j
  rw [h] at hfst
  cases he : (cellTable a birds)[j]? with
  | none => rw [he] at hfst; simp at hfst
  | some e =>
    rw [he] at hfst
    obtain ⟨oc, r⟩ := e
    have hoc : oc = some gc := by simpa using hfst
    subst hoc
    have hrr := cellTable_ndx a birds j gc r he
    rw [hrr]

/-- Distinct agents scatter to distinct slots. -/
theorem targets_injective (a : Accel) (birds : List Vec3) (h2 : 2 ≤ a.gridSrch)
    (m m' : ℕ) (gs gs' : ℤ) (r r' : ℕ) (hne : m ≠ m')
    (hm : (cellTable a birds)[m]? = some (some gs, r))
    (hm' : (cellTable a birds)[m']? = some (some gs', r')) :
    offFun a birds gs + r ≠ offFun a birds gs' + r' := by
  have hcl : (cellList a birds)[m]? = some (some gs) := by
    have := cellTable_fst a birds m
    rw [hm] at this
    simpa using this.symm
  have hcl' : (cellList a birds)[m']? = some (some gs') := by
    have := cellTable_fst a birds m'
    rw [hm'] at this
    simpa using this.symm
  have hrm := cellTable_ndx a birds m gs r hm
  have hrm' := cellTable_ndx a birds m' gs' r' hm'
  have hbm : 0 ≤ gs ∧ gs < a.gridTotal :=
    cellList_bounds a birds h2 gs (List.getElem?_mem hcl)
  have hbm' : 0 ≤ gs' ∧ gs' < a.gridTotal :=
    cellList_bounds a birds h2 gs' (List.getElem?_mem hcl')
  by_cases hgs : gs = gs'
  · subst hgs
    -- same cell: ranks differ strictly
    rcases Nat.lt_or_ge m m' with hlt | hge
    · have hstep := countCell_take_succ (cellList a birds) m gs hcl
      have hmono := countCell_take_le (cellList a birds) (m + 1) m' gs (by omega)
      omega
    · have hlt : m' < m := by omega
      have hstep := countCell_take_succ (cellList a birds) m' gs hcl'
      have hmono := countCell_take_le (cellList a birds) (m' + 1) m gs (by omega)
      omega
  · -- different cells: ranges are disjoint
    have hrlt : r < cntFun a birds gs := by
      rw [hrm, cntFun_eq]
      exact countCell_take_lt _ _ _ hcl
    have hrlt' : r' < cntFun a birds gs' := by
      rw [hrm', cntFun_eq]
      exact countCell_take_lt _ _ _ hcl'
    rcases Int.lt_or_lt_of_ne hgs with hlt | hlt
    · have := off_cnt_le_off a birds gs gs' hbm.1 hlt hbm'.2
      omega
    · have := off_cnt_le_off a birds gs' gs hbm'.1 hlt hbm.2
      omega

/-- Claim C1: after the count phase of `InsertIntoGrid` and the scan and
scatter of `PrefixSumGrid`, for every cell `gc` the slice
`[offset[gc], offset[gc] + count[gc])` of the sorted-agent array holds
exactly the agents whose cell is `gc` — an agent is in some slot of that
slice iff its computed cell is `gc` — and no agent occupies two slots, so
nothing is missing, duplicated, or placed in another cell's range.  (The
order inside the slice is not constrained.) -/
theorem C1_counting_sort_buckets (a : Accel) (birds : List Vec3) (h2 : 2 ≤ a.gridSrch)
    (gc : ℤ) (j : ℕ) :
    ((cellList a birds)[j]? = some (some gc) ↔
      ∃ s, offFun a birds gc ≤ s ∧ s < offFun a birds gc + cntFun a birds gc ∧
        masterGrid a birds s = some j) ∧
    (∀ s s', masterGrid a birds s = some j → masterGrid a birds s' = some j → s = s') := by
  constructor
  · constructor
    · intro hcell
      have hent := cellTable_entry a birds j gc hcell
      set r := countCell ((cellList a birds).take j) gc with hr
      have hrlt : r < cntFun a birds gc := by
        rw [cntFun_eq]
        exact countCell_take_lt _ _ _ hcell
      refine ⟨offFun a birds gc + r, by omega, by omega, ?_⟩
      have := scatterLoop_write (offFun a birds) (cellTable a birds) 0 (fun _ => none) j gc r hent
        (fun m' gs' rr' hne hm' =>
          targets_injective a birds h2 m' j gs' gc rr' r hne hm' hent)
      simpa using this
    · rintro ⟨s, hs1, hs2, hgrid⟩
      obtain ⟨gs, r, hent, hoff⟩ := masterGrid_result a birds s j hgrid
      have hcl : (cellList a birds)[j]? = some (some gs) := by
        have := cellTable_fst a birds j
        rw [hent] at this
        simpa using this.symm
      have hbs : 0 ≤ gs ∧ gs < a.gridTotal :=
        cellList_bounds a birds h2 gs (List.getElem?_mem hcl)
      by_cases hgg : gs = gc
      · subst hgg; exact hcl
      · exfalso
        have hrm := cellTable_ndx a birds j gs r hent
        have hrlt : r < cntFun a birds gs := by
          rw [hrm, cntFun_eq]
          exact countCell_take_lt _ _ _ hcl
        -- `s` would lie in two disjoint cell ranges; first `gc` is a real cell
        have hcpos : 0 < cntFun a birds gc := by omega
        have hmem : (some gc) ∈ cellList a birds := by
          rw [cntFun_eq, countCell] at hcpos
          obtain ⟨o, hmem, ho⟩ := List.countP_pos_iff.mp hcpos
          simp only [decide_eq_true_eq] at ho
          subst ho
          exact hmem
        have hbc : 0 ≤ gc ∧ gc < a.gridTotal := cellList_bounds a birds h2 gc hmem
        rcases Int.lt_or_lt_of_ne hgg with hlt | hlt
        · have := off_cnt_le_off a birds gs gc hbs.1 hlt hbc.2
          omega
        · have := off_cnt_le_off a birds gc gs hbc.1 hlt hbs.2
          omega
  · intro s s' h h'
    obtain ⟨gs, r, hent, hoff⟩ := masterGrid_result a birds s j h
    obtain ⟨gs', r', hent', hoff'⟩ := masterGrid_result a birds s' j h'
    rw [hent] at hent'
    have hpair := Option.some.inj hent'
    have hgs : gs = gs' := by
      have := congrArg Prod.fst hpair
      simpa using this
    have hr : r = r' := by
      have := congrArg Prod.snd hpair
      simpa using this
    subst hgs
    subst hr
    omega

/-! ### The cell walk reads only scattered agents -/

theorem walk_mem (c : SimCtx) (i j : ℕ) (h : j ∈ c.walk i) :
    (∃ s, c.grid s = some j) ∧ j < c.numPoints ∧ j ≠ i := by
  unfold SimCtx.walk walkList at h
  cases hg : c.gcell i with
  | none => rw [hg] at h; simp at h
  | some gs =>
    rw [hg] at h
    simp only [List.mem_flatten, List.mem_map] at h
    obtain ⟨l, ⟨adj, hadj, hl⟩, hjl⟩ := h
    subst hl
    simp only [List.mem_filter, List.mem_filterMap] at hjl
    obtain ⟨⟨s, hs, hgrid⟩, hcond⟩ := hjl
    simp only [Bool.and_eq_true, decide_eq_true_eq] at hcond
    exact ⟨⟨s, hgrid⟩, hcond.1, hcond.2⟩

/-- Claim C6: the grid builder computes the integer cell coordinate as
`(position - gridMin) * gridDelta` truncated (that is `cellCoord`), accepts
it exactly when it lies within `[1, resolution - gridSrch]` on every axis
(flattening it to the linear index), and otherwise writes the `GRID_UNDEF`
sentinel; a sentinel-carrying agent occupies no slot of the sorted-agent
array and never appears in any agent's cell-walk candidate stream (and the
bucketizer, being a total function, completes on it). -/
theorem C6_grid_builder_undefined (c : SimCtx) (n i : ℕ) (p : Vec3) :
    (insertCell c.acc p
      = (if 1 ≤ (cellCoord c.acc p).x ∧ (cellCoord c.acc p).x ≤ c.acc.gridResX - c.acc.gridSrch
            ∧ 1 ≤ (cellCoord c.acc p).y ∧ (cellCoord c.acc p).y ≤ c.acc.gridResY - c.acc.gridSrch
            ∧ 1 ≤ (cellCoord c.acc p).z ∧ (cellCoord c.acc p).z ≤ c.acc.gridResZ - c.acc.gridSrch
          then some (flatCell c.acc (cellCoord c.acc p)) else none)) ∧
    ((cellList c.acc c.birds)[n]? = some none →
      (∀ s, c.grid s ≠ some n) ∧ n ∉ c.walk i) := by
  constructor
  · rfl
  · intro hundef
    have hnot : ∀ s, c.grid s ≠ some n := by
      intro s hcon
      obtain ⟨gs, r, hent, _⟩ := masterGrid_result c.acc c.birds s n hcon
      have := cellTable_fst c.acc c.birds n
      rw [hent, hundef] at this
      simp at this
    refine ⟨hnot, ?_⟩
    intro hmem
    obtain ⟨⟨s, hgrid⟩, _, _⟩ := walk_mem c i n hmem
    exact hnot s hgrid

/-! ### The bounded insertion list (claims C5, C8, C10) -/

theorem findKFrom_ge (sortD : ℕ → ℚ) (dsq : ℚ) (fuel k : ℕ) :
    k ≤ findKFrom sortD dsq fuel k := by
  induction fuel generalizing k with
  | zero => simp [findKFrom]
  | succ fuel ih =>
    simp only [findKFrom]
    split_ifs
    · exact le_trans (by omega) (ih (k + 1))
    · exact le_refl k

theorem findKFrom_le (sortD : ℕ → ℚ) (dsq : ℚ) (fuel k : ℕ) :
    findKFrom sortD dsq fuel k ≤ k + fuel := by
  induction fuel generalizing k with
  | zero => simp [findKFrom]
  | succ fuel ih =>
    simp only [findKFrom]
    split_ifs
    · exact le_trans (ih (k + 1)) (by omega)
    · omega

theorem findKFrom_before (sortD : ℕ → ℚ) (dsq : ℚ) (fuel k : ℕ) (m : ℕ)
    (h1 : k ≤ m) (h2 : m < findKFrom sortD dsq fuel k) : sortD m < dsq := by
  induction fuel generalizing k with
  | zero => simp [findKFrom] at h2; omega
  | succ fuel ih =>
    simp only [findKFrom] at h2
    split_ifs at h2 with hd
    · by_cases hm : m = k
      · subst hm; exact hd
      · exact ih (k + 1) (by omega) h2
    · omega

theorem findKFrom_stop (sortD : ℕ → ℚ) (dsq : ℚ) (fuel k : ℕ)
    (h : findKFrom sortD dsq fuel k < k + fuel) :
    ¬ sortD (findKFrom sortD dsq fuel k) < dsq := by
  induction fuel generalizing k with
  | zero => simp [findKFrom] at h
  | succ fuel ih =>
    by_cases hd : sortD k < dsq
    · have hrw : findKFrom sortD dsq (fuel + 1) k = findKFrom sortD dsq fuel (k + 1) := by
        simp [findKFrom, hd]
      rw [hrw] at h ⊢
      exact ih (k + 1) (by omega)
    · have hrw : findKFrom sortD dsq (fuel + 1) k = k := by
        simp [findKFrom, hd]
      rw [hrw]
      exact hd

theorem findK_le (st : NbrState) (dsq : ℚ) : findK st dsq ≤ st.sortNum := by
  have := findKFrom_le st.sortD dsq st.sortNum 0
  simpa [findK] using this

theorem findK_before (st : NbrState) (dsq : ℚ) (m : ℕ) (h : m < findK st dsq) :
    st.sortD m < dsq :=
  findKFrom_before st.sortD dsq st.sortNum 0 m (by omega) h

theorem findK_stop (st : NbrState) (dsq : ℚ) (h : findK st dsq < st.sortNum) :
    dsq ≤ st.sortD (findK st dsq) := by
  have hstop := findKFrom_stop st.sortD dsq st.sortNum 0 (by simpa [findK] using h)
  simp only [findK]
  exact not_lt.mp hstop

theorem mergeSortQ_sorted (l : List ℚ) :
    (l.mergeSort (fun x y => decide (x ≤ y))).Sorted (· ≤ ·) := by
  have hp := @List.sorted_mergeSort _ (fun x y => decide (x ≤ y))
    (fun a b c h1 h2 => by
      simp only [decide_eq_true_eq] at *
      exact le_trans h1 h2)
    (fun a b => by
      simp only [Bool.or_eq_true, decide_eq_true_eq]
      exact le_total a b) l
  exact hp.imp (by simp)

theorem kSmallest_sorted (K : ℕ) (l : List ℚ) : (kSmallest K l).Sorted (· ≤ ·) := by
  have hp := @List.sorted_mergeSort _ (fun x y => decide (x ≤ y))
    (fun a b c h1 h2 => by
      simp only [decide_eq_true_eq] at *
      exact le_trans h1 h2)
    (fun a b => by
      simp only [Bool.or_eq_true, decide_eq_true_eq]
      exact le_total a b) l
  have hs : (l.mergeSort (fun x y => decide (x ≤ y))).Sorted (· ≤ ·) :=
    hp.imp (by simp)
  exact hs.sublist (List.take_sublist _ _)

theorem mergeSort_append_singleton (l : List ℚ) (d : ℚ) :
    (l ++ [d]).mergeSort (fun x y => decide (x ≤ y))
      = List.orderedInsert (· ≤ ·) d (l.mergeSort (fun x y => decide (x ≤ y))) := by
  have hsorted : ∀ l' : List ℚ, (l'.mergeSort (fun x y => decide (x ≤ y))).Sorted (· ≤ ·) := by
    intro l'
    have hp := @List.sorted_mergeSort _ (fun x y => decide (x ≤ y))
      (fun a b c h1 h2 => by
        simp only [decide_eq_true_eq] at *
        exact le_trans h1 h2)
      (fun a b => by
        simp only [Bool.or_eq_true, decide_eq_true_eq]
        exact le_total a b) l'
    exact hp.imp (by simp)
  have h1 : List.Perm ((l ++ [d]).mergeSort (fun x y => decide (x ≤ y))) (l ++ [d]) :=
    List.mergeSort_perm _ _
  have h2 : List.Perm (l ++ [d]) (d :: l) := List.perm_append_singleton d l
  have h3 : List.Perm (d :: l) (d :: l.mergeSort (fun x y => decide (x ≤ y))) :=
    (List.mergeSort_perm l _).symm.cons d
  have h4 : List.Perm (d :: l.mergeSort (fun x y => decide (x ≤ y)))
      (List.orderedInsert (· ≤ ·) d (l.mergeSort (fun x y => decide (x ≤ y)))) :=
    (List.perm_orderedInsert _ d _).symm
  exact List.eq_of_perm_of_sorted (((h1.trans h2).trans h3).trans h4) (hsorted _)
    ((hsorted l).orderedInsert d _)

theorem take_orderedInsert_take (d : ℚ) :
    ∀ (L : List ℚ) (K : ℕ), L.Sorted (· ≤ ·) →
    (List.orderedInsert (· ≤ ·) d L).take K
      = (List.orderedInsert (· ≤ ·) d (L.take K)).take K := by
  intro L
  induction L with
  | nil => intro K _; simp
  | cons b t ih =>
    intro K hs
    by_cases hdb : d ≤ b
    · rw [List.orderedInsert_of_le _ _ hdb]
      cases K with
      | zero => simp
      | succ K =>
        have hrw1 : List.take (K + 1) (b :: t) = b :: List.take K t := List.take_succ_cons
        rw [hrw1, List.orderedInsert_of_le _ _ hdb]
        simp only [List.take_succ_cons]
        cases K with
        | zero => simp
        | succ K =>
          simp only [List.take_succ_cons]
          rw [List.take_take]
          have hmin : min K (K + 1) = K := by omega
          rw [hmin]
    · have hstep : List.orderedInsert (· ≤ ·) d (b :: t) = b :: List.orderedInsert (· ≤ ·) d t := by
        simp [List.orderedInsert, hdb]
      rw [hstep]
      cases K with
      | zero => simp
      | succ K =>
        have hrw1 : List.take (K + 1) (b :: t) = b :: List.take K t := List.take_succ_cons
        have h2 : List.orderedInsert (· ≤ ·) d (b :: t.take K)
            = b :: List.orderedInsert (· ≤ ·) d (t.take K) := by
          simp [List.orderedInsert, hdb]
        rw [hrw1, h2]
        simp only [List.take_succ_cons]
        rw [ih K hs.of_cons]

theorem orderedInsert_at (d : ℚ) :
    ∀ (l : List ℚ) (k : ℕ), k ≤ l.length →
    (∀ m, m < k → l.getD m 0 < d) → (k < l.length → d ≤ l.getD k 0) →
    List.orderedInsert (· ≤ ·) d l = l.take k ++ d :: l.drop k := by
  intro l
  induction l with
  | nil =>
    intro k hk _ _
    have : k = 0 := by simpa using hk
    subst this
    simp
  | cons b t ih =>
    intro k hk hbefore hat
    cases k with
    | zero =>
      have hdb : d ≤ b := by
        have := hat (by simp)
        simpa using this
      rw [List.orderedInsert_of_le _ _ hdb]
      simp
    | succ k =>
      have hbd : b < d := by
        have := hbefore 0 (by omega)
        simpa using this
      have hnot : ¬ d ≤ b := not_le.mpr hbd
      have hstep : List.orderedInsert (· ≤ ·) d (b :: t) = b :: List.orderedInsert (· ≤ ·) d t := by
        simp [List.orderedInsert, hnot]
      rw [hstep, List.take_succ_cons, List.drop_succ_cons, List.cons_append]
      congr 1
      exact ih k (by simpa using hk)
        (fun m hm => by simpa using hbefore (m + 1) (by omega))
        (fun hlen => by simpa using hat (by simpa using Nat.succ_lt_succ hlen))

theorem liveD_length (ns : NbrState) : ns.liveD.length = ns.sortNum := by
  simp [NbrState.liveD]

theorem liveD_get (ns : NbrState) (m : ℕ) :
    ns.liveD[m]? = if m < ns.sortNum then some (ns.sortD m) else none := by
  by_cases h : m < ns.sortNum
  · simp [NbrState.liveD, List.getElem?_map, List.getElem?_range h, h]
  · have hle : ns.liveD.length ≤ m := by
      rw [liveD_length]; omega
    rw [List.getElem?_eq_none hle]
    simp [h]

theorem liveD_getD (ns : NbrState) (m : ℕ) (h : m < ns.sortNum) :
    ns.liveD.getD m 0 = ns.sortD m := by
  rw [List.getD_eq_getElem?_getD, liveD_get]
  simp [h]

theorem nbrInsert_sortNum (K : ℕ) (ns : NbrState) (j : ℕ) (d : ℚ) :
    (nbrInsert K ns j d).sortNum = if ns.sortNum + 1 > K then K else ns.sortNum + 1 := by
  have hk := findK_le ns d
  simp [nbrInsert, hk]

theorem nbrInsert_rNbrs (K : ℕ) (ns : NbrState) (j : ℕ) (d : ℚ) :
    (nbrInsert K ns j d).rNbrs = ns.rNbrs := by
  have hk := findK_le ns d
  simp [nbrInsert, hk]

theorem nbrInsert_sortD (K : ℕ) (ns : NbrState) (j : ℕ) (d : ℚ) :
    (nbrInsert K ns j d).sortD
      = fnUpdate (if findK ns d ≠ ns.sortNum
          then shiftSeg ns.sortD (findK ns d) ns.sortNum else ns.sortD)
          (findK ns d) d := by
  have hk := findK_le ns d
  simp [nbrInsert, hk]

theorem nbrInsert_sortJ (K : ℕ) (ns : NbrState) (j : ℕ) (d : ℚ) :
    (nbrInsert K ns j d).sortJ
      = fnUpdate (if findK ns d ≠ ns.sortNum
          then shiftSeg ns.sortJ (findK ns d) ns.sortNum else ns.sortJ)
          (findK ns d) (j : ℤ) := by
  have hk := findK_le ns d
  simp [nbrInsert, hk]

/-- The value written at live slot `i` by one insertion, as a function of
the insertion point: the new value at `i = k`, the old slot `i` below `k`,
the old slot `i - 1` above `k`. -/
theorem insert_slot_value {α : Type} (f : ℕ → α) (v : α) (k n n' : ℕ) (i : ℕ)
    (hk : k ≤ n) (hn' : n' ≤ n + 1) (hi : i < n') :
    fnUpdate (if k ≠ n then shiftSeg f k n else f) k v i
      = if i = k then v else if i < k then f i else f (i - 1) := by
  simp only [fnUpdate, shiftSeg]
  by_cases heq : i = k
  · simp [heq]
  · simp only [heq, if_false]
    by_cases hkn : k ≠ n
    · rw [if_pos hkn]
      by_cases hlt : i < k
      · have hcond : ¬ (k + 1 ≤ i ∧ i ≤ n) := by omega
        simp [shiftSeg, hcond, hlt]
      · have hcond : k + 1 ≤ i ∧ i ≤ n := by omega
        simp [shiftSeg, hcond, hlt]
    · rw [if_neg hkn]
      have hkeq : k = n := by
        by_contra hcon
        exact hkn hcon
      have hlt : i < k := by omega
      simp [hlt]

theorem nbrInsert_liveD (K : ℕ) (ns : NbrState) (j : ℕ) (d : ℚ) :
    (nbrInsert K ns j d).liveD
      = (List.orderedInsert (· ≤ ·) d ns.liveD).take
          (if ns.sortNum + 1 > K then K else ns.sortNum + 1) := by
  have hk := findK_le ns d
  have hn' : (if ns.sortNum + 1 > K then K else ns.sortNum + 1) ≤ ns.sortNum + 1 := by
    split_ifs <;> omega
  have hOI : List.orderedInsert (· ≤ ·) d ns.liveD
      = ns.liveD.take (findK ns d) ++ d :: ns.liveD.drop (findK ns d) := by
    apply orderedInsert_at
    · rw [liveD_length]; exact hk
    · intro m hm
      have hmn : m < ns.sortNum := by omega
      rw [liveD_getD ns m hmn]
      exact findK_before ns d m hm
    · intro hlen
      rw [liveD_length] at hlen
      rw [liveD_getD ns (findK ns d) hlen]
      exact findK_stop ns d hlen
  rw [hOI]
  apply List.ext_getElem?_iff.mpr
  intro i
  set k := findK ns d with hkdef
  set n := ns.sortNum with hndef
  set n' := (if n + 1 > K then K else n + 1) with hn'def
  have hlenA : (ns.liveD.take k).length = k := by
    rw [List.length_take, liveD_length]
    omega
  have hlhs : (nbrInsert K ns j d).liveD[i]?
      = if i < n' then some ((nbrInsert K ns j d).sortD i) else none := by
    rw [liveD_get, nbrInsert_sortNum]
  rw [hlhs]
  by_cases hin' : i < n'
  · rw [if_pos hin']
    have hval : (nbrInsert K ns j d).sortD i
        = if i = k then d else if i < k then ns.sortD i else ns.sortD (i - 1) := by
      rw [nbrInsert_sortD]
      exact insert_slot_value ns.sortD d k n n' i hk hn' hin'
    rw [hval]
    rw [List.getElem?_take_of_lt hin']
    rcases Nat.lt_trichotomy i k with hlt | heq | hgt
    · rw [List.getElem?_append_left (by rw [hlenA]; omega)]
      rw [List.getElem?_take_of_lt hlt, liveD_get]
      have h1 : i < n := by omega
      have h2 : ¬ i = k := by omega
      simp [h1, h2, hlt]
    · subst heq
      rw [List.getElem?_append_right (by rw [hlenA])]
      rw [hlenA]
      simp
    · rw [List.getElem?_append_right (by rw [hlenA]; omega)]
      rw [hlenA]
      have hidx : i - k = (i - k - 1) + 1 := by omega
      rw [hidx, List.getElem?_cons_succ, List.getElem?_drop, liveD_get]
      have h1 : k + (i - k - 1) = i - 1 := by omega
      have h2 : i - 1 < n := by omega
      rw [h1]
      have hne : ¬ i = k := by omega
      have hnlt : ¬ i < k := by omega
      simp [h2, hne, hnlt]
  · rw [if_neg hin']
    have hlen : ((ns.liveD.take k ++ d :: ns.liveD.drop k).take n').length ≤ i := by
      have hmin : ((ns.liveD.take k ++ d :: ns.liveD.drop k).take n').length ≤ n' := by
        rw [List.length_take]
        exact min_le_left _ _
      omega
    rw [List.getElem?_eq_none hlen]

theorem nbrInsert_entries (K : ℕ) (ns : NbrState) (j : ℕ) (d : ℚ) (m : ℕ)
    (hm : m < (nbrInsert K ns j d).sortNum) :
    ((nbrInsert K ns j d).sortJ m = (j : ℤ) ∧ (nbrInsert K ns j d).sortD m = d)
    ∨ (∃ m', m' < ns.sortNum ∧ (nbrInsert K ns j d).sortJ m = ns.sortJ m'
        ∧ (nbrInsert K ns j d).sortD m = ns.sortD m') := by
  have hk := findK_le ns d
  rw [nbrInsert_sortNum] at hm
  have hn' : (if ns.sortNum + 1 > K then K else ns.sortNum + 1) ≤ ns.sortNum + 1 := by
    split_ifs <;> omega
  have hD := insert_slot_value ns.sortD d (findK ns d) ns.sortNum _ m hk hn' hm
  have hJ := insert_slot_value ns.sortJ (j : ℤ) (findK ns d) ns.sortNum _ m hk hn' hm
  rw [nbrInsert_sortD, nbrInsert_sortJ, hD, hJ]
  by_cases heq : m = findK ns d
  · left
    simp [heq]
  · right
    by_cases hlt : m < findK ns d
    · exact ⟨m, by omega, by simp [heq, hlt], by simp [heq, hlt]⟩
    · refine ⟨m - 1, by omega, by simp [heq, hlt], by simp [heq, hlt]⟩

theorem NbrInv_step (K : ℕ) (dval : ℕ → ℚ) (processed : List ℕ) (ns : NbrState) (j : ℕ)
    (hinv : NbrInv K dval processed ns) :
    NbrInv K dval (processed ++ [j]) (nbrInsert K ns j (dval j)) := by
  obtain ⟨hlen, hliveD, hpairs⟩ := hinv
  refine ⟨?_, ?_, ?_⟩
  · rw [nbrInsert_sortNum, List.length_append, hlen]
    simp only [List.length_cons, List.length_nil]
    split_ifs <;> omega
  · rw [nbrInsert_liveD, hliveD, hlen, List.map_append]
    have hsingle : List.map dval [j] = [dval j] := rfl
    rw [hsingle]
    rw [kSmallest, kSmallest, mergeSort_append_singleton]
    set S := (processed.map dval).mergeSort (fun x y => decide (x ≤ y)) with hS
    have hSsorted : S.Sorted (· ≤ ·) := mergeSortQ_sorted _
    rw [take_orderedInsert_take (dval j) S K hSsorted]
    have hlenS : S.length = processed.length := by
      rw [hS, List.length_mergeSort, List.length_map]
    have hlenX : (List.orderedInsert (· ≤ ·) (dval j) (S.take K)).length
        = min K processed.length + 1 := by
      rw [List.orderedInsert_length, List.length_take, hlenS]
    by_cases hc : min K processed.length + 1 > K
    · rw [if_pos hc]
    · rw [if_neg hc]
      have hle1 : (List.orderedInsert (· ≤ ·) (dval j) (S.take K)).length
          ≤ min K processed.length + 1 := by omega
      have hle2 : (List.orderedInsert (· ≤ ·) (dval j) (S.take K)).length ≤ K := by omega
      rw [List.take_of_length_le hle1, List.take_of_length_le hle2]
  · intro m hm
    rcases nbrInsert_entries K ns j (dval j) m hm with ⟨hJ, hD⟩ | ⟨m', hm', hJ, hD⟩
    · exact ⟨j, by simp, hJ, hD⟩
    · obtain ⟨j', hj', hJ', hD'⟩ := hpairs m' hm'
      exact ⟨j', by simp [hj'], by rw [hJ, hJ'], by rw [hD, hD']⟩

theorem NbrInv_zero (K : ℕ) (dval : ℕ → ℚ) (ns : NbrState) (h : ns.sortNum = 0) :
    NbrInv K dval [] ns := by
  refine ⟨by simp [h], ?_, ?_⟩
  · simp [NbrState.liveD, h, kSmallest]
  · intro k hk
    omega

theorem NbrInv_rnbrs (K : ℕ) (dval : ℕ → ℚ) (pre : List ℕ) (ns : NbrState) (r : ℕ)
    (h : NbrInv K dval pre ns) :
    NbrInv K dval pre { ns with rNbrs := r } := by
  obtain ⟨h1, h2, h3⟩ := h
  exact ⟨h1, by simpa [NbrState.liveD] using h2, h3⟩

/-- The neighbor component of the candidate fold maintains the bounded
insertion invariant over the qualified (in-radius, in-cone) sub-stream. -/
theorem candidate_fold_NbrInv (P : Params) (pos : ℕ → Vec3) (fov : ℕ → ℕ → Bool) (i : ℕ)
    (l : List ℕ) (pre : List ℕ) (s : ClusterState × NbrState)
    (hinv : NbrInv P.neighbors (fun j => distSq (pos i) (pos j)) pre s.2) :
    NbrInv P.neighbors (fun j => distSq (pos i) (pos j))
      (pre ++ l.filter (fun j => decide (distSq (pos i) (pos j) < P.rd2) && fov i j))
      ((l.foldl (candidateStep P pos fov i) s).2) := by
  induction l generalizing pre s with
  | nil => simpa using hinv
  | cons j t ih =>
    simp only [List.foldl_cons, List.filter_cons]
    by_cases hq : (decide (distSq (pos i) (pos j) < P.rd2) && fov i j) = true
    · rw [if_pos hq]
      have hr : distSq (pos i) (pos j) < P.rd2 := by
        have := hq
        simp only [Bool.and_eq_true, decide_eq_true_eq] at this
        exact this.1
      have hf : fov i j = true := by
        have := hq
        simp only [Bool.and_eq_true, decide_eq_true_eq] at this
        exact this.2
      have hstep : (candidateStep P pos fov i s j).2
          = { nbrInsert P.neighbors s.2 j (distSq (pos i) (pos j)) with
              rNbrs := (nbrInsert P.neighbors s.2 j (distSq (pos i) (pos j))).rNbrs + 1 } := by
        simp [candidateStep, hr, hf]
      have hnext : NbrInv P.neighbors (fun j' => distSq (pos i) (pos j')) (pre ++ [j])
          ((candidateStep P pos fov i s j).2) := by
        rw [hstep]
        exact NbrInv_rnbrs _ _ _ _ _ (NbrInv_step _ _ _ _ _ hinv)
      have := ih (pre ++ [j]) (candidateStep P pos fov i s j) hnext
      simpa [List.append_assoc] using this
    · rw [if_neg hq]
      have hstep : (candidateStep P pos fov i s j).2 = s.2 := by
        unfold candidateStep
        by_cases hr : distSq (pos i) (pos j) < P.rd2
        · cases hfov : fov i j with
          | false => simp [hr, hfov]
          | true =>
            exfalso
            apply hq
            simp [hr, hfov]
        · simp [hr]
      have hnext : NbrInv P.neighbors (fun j' => distSq (pos i) (pos j')) pre
          ((candidateStep P pos fov i s j).2) := by
        rw [hstep]
        exact hinv
      exact ih pre (candidateStep P pos fov i s j) hnext

/-- Claim C5: at every point during one agent's neighbor scan (any prefix of
its candidate stream) the retained list holds at most `K = m_Params.neighbors`
entries, is sorted ascending by squared distance, and consists exactly of
the `K` closest candidates seen so far that passed both the radius test and
the field-of-view test (their distance multiset is the `K` smallest, and
every entry is such a candidate with its true squared distance). -/
theorem C5_bounded_sorted_topK (c : SimCtx) (i p : ℕ) (cst : ClusterState) (ns : NbrState) :
    (((((c.walk i).take p).foldl (candidateStep c.prm c.pos c.fov i)
        (cst, { ns with sortNum := 0, rNbrs := 0 })).2).sortNum ≤ c.prm.neighbors) ∧
    ((((c.walk i).take p).foldl (candidateStep c.prm c.pos c.fov i)
        (cst, { ns with sortNum := 0, rNbrs := 0 })).2).sortNum
      = min c.prm.neighbors
          (((c.walk i).take p).filter
            (fun j => decide (distSq (c.pos i) (c.pos j) < c.prm.rd2) && c.fov i j)).length ∧
    (((((c.walk i).take p).foldl (candidateStep c.prm c.pos c.fov i)
        (cst, { ns with sortNum := 0, rNbrs := 0 })).2).liveD).Sorted (· ≤ ·) ∧
    ((((c.walk i).take p).foldl (candidateStep c.prm c.pos c.fov i)
        (cst, { ns with sortNum := 0, rNbrs := 0 })).2).liveD
      = kSmallest c.prm.neighbors
          ((((c.walk i).take p).filter
            (fun j => decide (distSq (c.pos i) (c.pos j) < c.prm.rd2) && c.fov i j)).map
            (fun j => distSq (c.pos i) (c.pos j))) ∧
    (∀ k, k < ((((c.walk i).take p).foldl (candidateStep c.prm c.pos c.fov i)
        (cst, { ns with sortNum := 0, rNbrs := 0 })).2).sortNum →
      ∃ j ∈ ((c.walk i).take p).filter
          (fun j => decide (distSq (c.pos i) (c.pos j) < c.prm.rd2) && c.fov i j),
        ((((c.walk i).take p).foldl (candidateStep c.prm c.pos c.fov i)
          (cst, { ns with sortNum := 0, rNbrs := 0 })).2).sortJ k = (j : ℤ) ∧
        ((((c.walk i).take p).foldl (candidateStep c.prm c.pos c.fov i)
          (cst, { ns with sortNum := 0, rNbrs := 0 })).2).sortD k
          = distSq (c.pos i) (c.pos j)) := by
  have h0 : NbrInv c.prm.neighbors (fun j => distSq (c.pos i) (c.pos j)) []
      ({ ns with sortNum := 0, rNbrs := 0 } : NbrState) :=
    NbrInv_zero _ _ _ rfl
  have hinv := candidate_fold_NbrInv c.prm c.pos c.fov i ((c.walk i).take p) []
    (cst, { ns with sortNum := 0, rNbrs := 0 }) h0
  simp only [List.nil_append] at hinv
  obtain ⟨hlen, hliveD, hpairs⟩ := hinv
  refine ⟨by omega, hlen, ?_, hliveD, hpairs⟩
  rw [hliveD]
  exact kSmallest_sorted _ _

/-- Claim C10: provided the configured neighbor count is at most 15, the
per-agent list never exceeds it, and every index of the 16-entry arrays
`sort_d_nbr` / `sort_j_nbr` read or written by the next insertion —
including the scan loop's read of `sort_d_nbr[k]` before the `k < sort_num`
bound is tested, and the shift's writes at `m + 1` — stays within
`0 .. 15`. -/
theorem C10_insertion_touched_bounds (c : SimCtx) (i p : ℕ) (cst : ClusterState)
    (ns : NbrState) (jc : ℕ) (hK : c.prm.neighbors ≤ 15) :
    ((((c.walk i).take p).foldl (candidateStep c.prm c.pos c.fov i)
        (cst, { ns with sortNum := 0, rNbrs := 0 })).2).sortNum ≤ c.prm.neighbors ∧
    (∀ idx ∈ nbrInsertTouched
        ((((c.walk i).take p).foldl (candidateStep c.prm c.pos c.fov i)
          (cst, { ns with sortNum := 0, rNbrs := 0 })).2)
        (distSq (c.pos i) (c.pos jc)), idx ≤ 15) := by
  have h0 : NbrInv c.prm.neighbors (fun j => distSq (c.pos i) (c.pos j)) []
      ({ ns with sortNum := 0, rNbrs := 0 } : NbrState) :=
    NbrInv_zero _ _ _ rfl
  have hinv := candidate_fold_NbrInv c.prm c.pos c.fov i ((c.walk i).take p) []
    (cst, { ns with sortNum := 0, rNbrs := 0 }) h0
  simp only [List.nil_append] at hinv
  obtain ⟨hlen, _, _⟩ := hinv
  refine ⟨by omega, ?_⟩
  intro idx hidx
  set st := (((c.walk i).take p).foldl (candidateStep c.prm c.pos c.fov i)
    (cst, { ns with sortNum := 0, rNbrs := 0 })).2 with hst
  have hk := findK_le st (distSq (c.pos i) (c.pos jc))
  simp only [nbrInsertTouched, List.mem_append, List.mem_range, List.mem_singleton] at hidx
  rcases hidx with (h | h) | h
  · omega
  · by_cases hc : findK st (distSq (c.pos i) (c.pos jc)) ≠ st.sortNum
    · rw [if_pos hc] at h
      have := List.mem_range'_1.mp h
      omega
    · rw [if_neg hc] at h
      simp at h
  · omega

theorem liveJ_length (ns : NbrState) : ns.liveJ.length = ns.sortNum := by
  simp [NbrState.liveJ]

theorem aveLoop_eq (pos vel : ℕ → Vec3) (ns : NbrState) (n : ℕ) :
    aveLoop pos vel ns n
      = (vecSum (((List.range n).map (fun k => (ns.sortJ k).toNat)).map pos),
         vecSum (((List.range n).map (fun k => (ns.sortJ k).toNat)).map vel)) := by
  induction n with
  | zero => simp [aveLoop, vecSum]
  | succ n ih =>
    rw [aveLoop, ih, List.range_succ]
    simp only [List.map_append, List.map_cons, List.map_nil]
    simp [vecSum, List.foldl_append]

theorem agent_out_fields (c : SimCtx) (i : ℕ) (cst : ClusterState) (ns : NbrState) :
    (c.agent i cst ns).2.2.tNbrs = (c.agent i cst ns).2.1.sortNum ∧
    (c.agent i cst ns).2.2.avePos
      = (if 0 < (c.agent i cst ns).2.1.sortNum
          then Vec3.smul (1 / (((c.agent i cst ns).2.1.sortNum : ℚ)))
            (aveLoop c.pos c.vel ((c.agent i cst ns).2.1) ((c.agent i cst ns).2.1.sortNum)).1
          else (aveLoop c.pos c.vel ((c.agent i cst ns).2.1) ((c.agent i cst ns).2.1.sortNum)).1) ∧
    (c.agent i cst ns).2.2.aveVel
      = (if 0 < (c.agent i cst ns).2.1.sortNum
          then Vec3.smul (1 / (((c.agent i cst ns).2.1.sortNum : ℚ)))
            (aveLoop c.pos c.vel ((c.agent i cst ns).2.1) ((c.agent i cst ns).2.1.sortNum)).2
          else (aveLoop c.pos c.vel ((c.agent i cst ns).2.1) ((c.agent i cst ns).2.1.sortNum)).2) :=
  ⟨rfl, rfl, rfl⟩

/-- Claim C8: after one agent's scan, `ave_pos` and `ave_vel` equal the
unweighted mean (sum scaled by one over the count) of the positions and
velocities of the agents in the retained candidate list, and the reported
neighbor count `t_nbrs` equals that list's length; when the retained list
is empty both aggregates are exactly the zero vector and the count is
zero. -/
theorem C8_neighbor_aggregates (c : SimCtx) (i : ℕ) (cst : ClusterState) (ns : NbrState) :
    ((c.agent i cst ns).2.2.tNbrs = ((c.agent i cst ns).2.1).liveJ.length) ∧
    (((c.agent i cst ns).2.1).liveJ ≠ [] →
      (c.agent i cst ns).2.2.avePos
        = Vec3.smul (1 / ((((c.agent i cst ns).2.1).liveJ.length : ℚ)))
            (vecSum (((c.agent i cst ns).2.1).liveJ.map c.pos)) ∧
      (c.agent i cst ns).2.2.aveVel
        = Vec3.smul (1 / ((((c.agent i cst ns).2.1).liveJ.length : ℚ)))
            (vecSum (((c.agent i cst ns).2.1).liveJ.map c.vel))) ∧
    (((c.agent i cst ns).2.1).liveJ = [] →
      (c.agent i cst ns).2.2.avePos = Vec3.zero ∧
      (c.agent i cst ns).2.2.aveVel = Vec3.zero ∧
      (c.agent i cst ns).2.2.tNbrs = 0) := by
  obtain ⟨ht, hp, hv⟩ := agent_out_fields c i cst ns
  set ns2 := (c.agent i cst ns).2.1 with hns2
  have hlive : ns2.liveJ = (List.range ns2.sortNum).map (fun k => (ns2.sortJ k).toNat) := rfl
  have hsum := aveLoop_eq c.pos c.vel ns2 ns2.sortNum
  refine ⟨?_, ?_, ?_⟩
  · rw [ht, liveJ_length]
  · intro hne
    have hnz : 0 < ns2.sortNum := by
      have hl := liveJ_length ns2
      rcases Nat.eq_zero_or_pos ns2.sortNum with h0 | hpos
      · exfalso
        apply hne
        have : ns2.liveJ.length = 0 := by rw [hl, h0]
        exact List.length_eq_zero.mp this
      · exact hpos
    constructor
    · rw [hp, if_pos hnz, hsum, liveJ_length, hlive]
    · rw [hv, if_pos hnz, hsum, liveJ_length, hlive]
  · intro hemp
    have hz : ns2.sortNum = 0 := by
      have hl := liveJ_length ns2
      rw [hemp] at hl
      simpa using hl.symm
    refine ⟨?_, ?_, ?_⟩
    · rw [hp, if_neg (by omega), hsum, hz]
      simp [vecSum]
    · rw [hv, if_neg (by omega), hsum, hz]
      simp [vecSum]
    · rw [ht, hz]

/-! ### Connectivity lemmas (claims C3, C4) -/

theorem conn_mono (r r' : ℕ → ℕ → Prop) (h : ∀ x y, r x y → r' x y) (x y : ℕ)
    (hc : Conn r x y) : Conn r' x y := by
  induction hc with
  | base hr => exact Conn.base (h _ _ hr)
  | refl z => exact Conn.refl z
  | symm _ ih => exact Conn.symm ih
  | trans _ _ ih1 ih2 => exact Conn.trans ih1 ih2

theorem conn_congr (r r' : ℕ → ℕ → Prop) (h : ∀ x y, r x y ↔ r' x y) (x y : ℕ) :
    Conn r x y ↔ Conn r' x y :=
  ⟨conn_mono r r' (fun a b => (h a b).mp) x y, conn_mono r' r (fun a b => (h a b).mpr) x y⟩

theorem conn_touch (r : ℕ → ℕ → Prop) (x : ℕ) (hx : ∀ z, ¬ r x z ∧ ¬ r z x) :
    ∀ a b, Conn r a b → (a = x ↔ b = x) := by
  intro a b h
  induction h with
  | base hr =>
    constructor
    · intro he
      subst he
      exact absurd hr (hx _).1
    · intro he
      subst he
      exact absurd hr (hx _).2
  | refl z => exact Iff.rfl
  | symm _ ih => exact ih.symm
  | trans _ _ ih1 ih2 => exact ih1.trans ih2

theorem conn_untouched (r : ℕ → ℕ → Prop) (x y : ℕ)
    (hx : ∀ z, ¬ r x z ∧ ¬ r z x) (h : Conn r x y) : x = y :=
  ((conn_touch r x hx x y h).mp rfl).symm

theorem conn_addRel (r : ℕ → ℕ → Prop) (i j : ℕ) (x y : ℕ) :
    Conn (addRel r i j) x y ↔
      Conn r x y ∨ (Conn r x i ∧ Conn r j y) ∨ (Conn r x j ∧ Conn r i y) := by
  constructor
  · intro h
    induction h with
    | base hr =>
      rcases hr with hr | ⟨hx, hy⟩
      · exact Or.inl (Conn.base hr)
      · subst hx
        subst hy
        exact Or.inr (Or.inl ⟨Conn.refl _, Conn.refl _⟩)
    | refl z => exact Or.inl (Conn.refl z)
    | symm _ ih =>
      rcases ih with h1 | ⟨h1, h2⟩ | ⟨h1, h2⟩
      · exact Or.inl h1.symm
      · exact Or.inr (Or.inr ⟨h2.symm, h1.symm⟩)
      · exact Or.inr (Or.inl ⟨h2.symm, h1.symm⟩)
    | trans _ _ ih1 ih2 =>
      rcases ih1 with h1 | ⟨h1, h2⟩ | ⟨h1, h2⟩ <;>
        rcases ih2 with h3 | ⟨h3, h4⟩ | ⟨h3, h4⟩
      · exact Or.inl (h1.trans h3)
      · exact Or.inr (Or.inl ⟨h1.trans h3, h4⟩)
      · exact Or.inr (Or.inr ⟨h1.trans h3, h4⟩)
      · exact Or.inr (Or.inl ⟨h1, h2.trans h3⟩)
      · exact Or.inl (h1.trans (h3.symm.trans (h2.symm.trans h4)))
      · exact Or.inl (h1.trans h4)
      · exact Or.inr (Or.inr ⟨h1, h2.trans h3⟩)
      · exact Or.inl (h1.trans h4)
      · exact Or.inl (h1.trans (h3.symm.trans (h2.symm.trans h4)))
  · intro h
    have hbase : Conn (addRel r i j) i j := Conn.base (Or.inr ⟨rfl, rfl⟩)
    have hmono : ∀ a b, Conn r a b → Conn (addRel r i j) a b :=
      conn_mono r (addRel r i j) (fun a b hr => Or.inl hr)
    rcases h with h1 | ⟨h1, h2⟩ | ⟨h1, h2⟩
    · exact hmono _ _ h1
    · exact ((hmono _ _ h1).trans hbase).trans (hmono _ _ h2)
    · exact ((hmono _ _ h1).trans hbase.symm).trans (hmono _ _ h2)

theorem getD_set_self (l : List (List ℕ)) (k : ℕ) (v : List ℕ) (h : k < l.length) :
    (l.set k v).getD k [] = v := by
  rw [List.getD_eq_getElem?_getD, List.getElem?_set_self (by omega)]
  rfl

theorem getD_set_ne (l : List (List ℕ)) (k k' : ℕ) (v : List ℕ) (h : k' ≠ k) :
    (l.set k v).getD k' [] = l.getD k' [] := by
  rw [List.getD_eq_getElem?_getD, List.getD_eq_getElem?_getD,
    List.getElem?_set_ne (by omega)]

theorem getD_append_lt (l : List (List ℕ)) (v : List ℕ) (k : ℕ) (h : k < l.length) :
    (l ++ [v]).getD k [] = l.getD k [] := by
  rw [List.getD_eq_getElem?_getD, List.getD_eq_getElem?_getD,
    List.getElem?_append_left h]

theorem getD_append_self (l : List (List ℕ)) (v : List ℕ) :
    (l ++ [v]).getD l.length [] = v := by
  rw [List.getD_eq_getElem?_getD, List.getElem?_append_right (le_refl _)]
  simp

theorem getD_ge (l : List (List ℕ)) (k : ℕ) (h : l.length ≤ k) : l.getD k [] = [] := by
  rw [List.getD_eq_getElem?_getD, List.getElem?_eq_none h]
  rfl

/-- Under the invariant, membership in a member list is exactly carrying
that cluster id. -/
theorem mem_memberList_iff (n : ℕ) (st : ClusterState) (hinv : ClusterInv n st)
    (k : ℕ) (x : ℕ) : x ∈ memberList st k ↔ st.cid x = (k : ℤ) := by
  obtain ⟨hmax, hlen, hbound, hmem, hown, hnodup⟩ := hinv
  constructor
  · exact hmem k x
  · intro hcid
    have hne : st.cid x ≠ -1 := by omega
    have := hown x hne
    rwa [hcid, Int.toNat_natCast] at this

theorem newCluster_facts (n : ℕ) (st : ClusterState) (i : ℕ) (hi : i < n)
    (hinv : ClusterInv n st) :
    ClusterInv n (newClusterIfNone i st) ∧ (newClusterIfNone i st).cid i ≠ -1
    ∧ (∀ x, st.cid x ≠ -1 → (newClusterIfNone i st).cid x = st.cid x)
    ∧ (∀ x, (newClusterIfNone i st).cid x ≠ -1 → x = i ∨ st.cid x ≠ -1) := by
  obtain ⟨hmax, hlen, hbound, hmem, hown, hnodup⟩ := hinv
  unfold newClusterIfNone
  by_cases hci : st.cid i = -1
  · rw [if_pos hci]
    have hinotmem : ∀ k, i ∉ memberList st k := by
      intro k hcon
      have := hmem k i hcon
      omega
    have hlen2 : (st.assign ++ [[i]]).length = st.assign.length + 1 := by
      simp
    refine ⟨⟨?_, ?_, ?_, ?_, ?_, ?_⟩, ?_, ?_, ?_⟩
    · dsimp only
      omega
    · dsimp only
      rw [hlen2]
      omega
    · dsimp only
      intro x hx
      simp only [fnUpdate] at hx ⊢
      by_cases hxi : x = i
      · subst hxi
        rw [if_pos rfl]
        refine ⟨by omega, by omega, hi⟩
      · simp only [hxi, if_false] at hx ⊢
        have := hbound x hx
        refine ⟨this.1, by omega, this.2.2⟩
    · dsimp only [memberList]
      intro k x hx
      by_cases hk : k < st.assign.length
      · rw [getD_append_lt _ _ _ hk] at hx
        have hcx := hmem k x hx
        have hxi : x ≠ i := by
          intro hcon
          subst hcon
          exact hinotmem k hx
        simp only [fnUpdate, hxi, if_false]
        exact hcx
      · by_cases hk2 : k = st.assign.length
        · subst hk2
          rw [getD_append_self] at hx
          simp only [List.mem_singleton] at hx
          subst hx
          simp only [fnUpdate]
          simp only [if_true]
          omega
        · rw [getD_ge] at hx
          · simp at hx
          · rw [hlen2]
            omega
    · dsimp only [memberList]
      intro x hx
      simp only [fnUpdate] at hx ⊢
      by_cases hxi : x = i
      · subst hxi
        rw [if_pos rfl]
        have htn : (st.maxClusterId + 1).toNat = st.assign.length := by omega
        rw [htn, getD_append_self]
        simp
      · simp only [hxi, if_false] at hx ⊢
        have hb := hbound x hx
        have hm := hown x hx
        simp only [memberList] at hm
        rw [getD_append_lt]
        · exact hm
        · omega
    · dsimp only [memberList]
      intro k
      by_cases hk : k < st.assign.length
      · rw [getD_append_lt _ _ _ hk]
        exact hnodup k
      · by_cases hk2 : k = st.assign.length
        · subst hk2
          rw [getD_append_self]
          simp
        · rw [getD_ge]
          · simp
          · rw [hlen2]
            omega
    · dsimp only
      simp only [fnUpdate]
      simp only [if_true]
      omega
    · dsimp only
      intro x hx
      simp only [fnUpdate]
      have hxi : x ≠ i := by
        intro hcon
        subst hcon
        exact hx hci
      simp [hxi]
    · dsimp only
      intro x hx
      simp only [fnUpdate] at hx
      by_cases hxi : x = i
      · exact Or.inl hxi
      · simp only [hxi, if_false] at hx
        exact Or.inr hx
  · rw [if_neg hci]
    exact ⟨⟨hmax, hlen, hbound, hmem, hown, hnodup⟩, hci, fun x _ => rfl, fun x hx => Or.inr hx⟩

theorem newCluster_conn (n : ℕ) (E : ℕ → ℕ → Prop) (st : ClusterState) (i : ℕ)
    (hinv : ClusterInv n st) (hconn : ConnInv E st) :
    ConnInv E (newClusterIfNone i st) := by
  obtain ⟨hmax, hlen, hbound, hmem, hown, hnodup⟩ := hinv
  obtain ⟨hiff, hunt⟩ := hconn
  unfold newClusterIfNone
  by_cases hci : st.cid i = -1
  · rw [if_pos hci]
    constructor
    · dsimp only
      intro x y hx hy
      simp only [fnUpdate] at hx hy ⊢
      by_cases hxi : x = i <;> by_cases hyi : y = i
      · rw [if_pos hxi, if_pos hyi]
        refine iff_of_true rfl ?_
        rw [hxi, hyi]
        exact Conn.refl i
      · rw [if_pos hxi, if_neg hyi]
        rw [if_neg hyi] at hy
        apply iff_of_false
        · have := hbound y hy
          omega
        · intro hcon
          rw [hxi] at hcon
          have := conn_untouched E i y (hunt i hci) hcon
          exact hyi this.symm
      · rw [if_neg hxi, if_pos hyi]
        rw [if_neg hxi] at hx
        apply iff_of_false
        · have := hbound x hx
          omega
        · intro hcon
          rw [hyi] at hcon
          have := conn_untouched E i x (hunt i hci) hcon.symm
          exact hxi this.symm
      · rw [if_neg hxi, if_neg hyi]
        rw [if_neg hxi] at hx
        rw [if_neg hyi] at hy
        exact hiff x y hx hy
    · dsimp only
      intro x hx
      simp only [fnUpdate] at hx
      by_cases hxi : x = i
      · rw [if_pos hxi] at hx
        exact absurd hx (by omega)
      · rw [if_neg hxi] at hx
        exact hunt x hx
  · rw [if_neg hci]
    exact ⟨hiff, hunt⟩

theorem pairStep_eqA (st : ClusterState) (i j : ℕ) (hij : i ≠ j) (hciJ : st.cid j = -1) :
    clusterPairStep i j st
      = { st with
          cid := fnUpdate st.cid j (st.cid i),
          assign := st.assign.set (st.cid i).toNat
            (st.assign.getD (st.cid i).toNat [] ++ [j]) } := by
  unfold clusterPairStep
  rw [if_pos hciJ]
  dsimp only
  have h1 : fnUpdate st.cid j (st.cid i) j = st.cid i := by
    simp [fnUpdate]
  have h2 : fnUpdate st.cid j (st.cid i) i = st.cid i := by
    have hne : ¬ (i = j) := hij
    simp [fnUpdate, hne]
  rw [h1, h2]
  rw [if_neg (by simp)]

theorem pairStep_eqB (st : ClusterState) (i j : ℕ) (hciJ : st.cid j ≠ -1)
    (heq : st.cid j = st.cid i) : clusterPairStep i j st = st := by
  unfold clusterPairStep
  rw [if_neg hciJ]
  dsimp only
  rw [if_neg (by simp [heq])]

theorem pairStep_eqC (st : ClusterState) (i j : ℕ) (hciJ : st.cid j ≠ -1)
    (hne : st.cid j ≠ st.cid i) :
    clusterPairStep i j st
      = { st with
          cid := fun x => if x ∈ st.assign.getD (st.cid j).toNat []
            then ((st.cid i).toNat : ℤ) else st.cid x,
          assign := (st.assign.set (st.cid i).toNat
            (st.assign.getD (st.cid i).toNat [] ++ st.assign.getD (st.cid j).toNat [])).set
            (st.cid j).toNat [] } := by
  unfold clusterPairStep
  rw [if_neg hciJ]
  dsimp only
  rw [if_pos hne]

theorem pairStepA_props (n : ℕ) (E : ℕ → ℕ → Prop) (st : ClusterState) (i j : ℕ)
    (hi : i < n) (hj : j < n) (hij : i ≠ j) (hci : st.cid i ≠ -1) (hciJ : st.cid j = -1)
    (hinv : ClusterInv n st) (hconn : ConnInv E st) :
    ClusterInv n (clusterPairStep i j st) ∧ ConnInv (addRel E i j) (clusterPairStep i j st)
    ∧ (clusterPairStep i j st).cid i = st.cid i
    ∧ (∀ x, st.cid x ≠ -1 → (clusterPairStep i j st).cid x ≠ -1) := by
  obtain ⟨hmax, hlen, hbound, hbmem, hown, hnodup⟩ := hinv
  obtain ⟨hiff, hunt⟩ := hconn
  rw [pairStep_eqA st i j hij hciJ]
  have hciB := hbound i hci
  have hti : ((st.cid i).toNat : ℤ) = st.cid i := Int.toNat_of_nonneg hciB.1
  have htiLen : (st.cid i).toNat < st.assign.length := by omega
  have hjnot : ∀ k, j ∉ memberList st k := by
    intro k hcon
    have := hbmem k j hcon
    omega
  have hml : ∀ k, (st.assign.set (st.cid i).toNat
      (st.assign.getD (st.cid i).toNat [] ++ [j])).getD k []
      = if k = (st.cid i).toNat
        then st.assign.getD (st.cid i).toNat [] ++ [j] else st.assign.getD k [] := by
    intro k
    by_cases hk : k = (st.cid i).toNat
    · subst hk
      rw [getD_set_self _ _ _ htiLen, if_pos rfl]
    · rw [getD_set_ne _ _ _ _ hk, if_neg hk]
  have hcid' : ∀ x, fnUpdate st.cid j (st.cid i) x = if x = j then st.cid i else st.cid x := by
    intro x
    rfl
  refine ⟨⟨hmax, by simpa using hlen, ?_, ?_, ?_, ?_⟩, ⟨?_, ?_⟩, ?_, ?_⟩
  · -- bounds
    dsimp only
    intro x hx
    rw [hcid'] at hx ⊢
    by_cases hxj : x = j
    · rw [if_pos hxj] at hx ⊢
      exact ⟨hciB.1, hciB.2.1, hxj ▸ hj⟩
    · rw [if_neg hxj] at hx ⊢
      exact hbound x hx
  · -- member lists carry their id
    dsimp only [memberList]
    intro k x hx
    rw [hml] at hx
    rw [hcid']
    by_cases hk : k = (st.cid i).toNat
    · rw [if_pos hk] at hx
      rcases List.mem_append.mp hx with hx1 | hx2
      · have hxj : x ≠ j := by
          intro hcon
          subst hcon
          exact hjnot _ hx1
        rw [if_neg hxj]
        have := hbmem _ x hx1
        rw [hk]
        exact this
      · simp only [List.mem_singleton] at hx2
        subst hx2
        rw [if_pos rfl, hk, hti]
    · rw [if_neg hk] at hx
      have hxj : x ≠ j := by
        intro hcon
        subst hcon
        exact hjnot _ hx
      rw [if_neg hxj]
      exact hbmem k x hx
  · -- each assigned bird occurs in its own list
    dsimp only [memberList]
    intro x hx
    rw [hcid'] at hx ⊢
    by_cases hxj : x = j
    · subst hxj
      rw [if_pos rfl] at hx ⊢
      rw [hml, if_pos rfl]
      simp
    · rw [if_neg hxj] at hx ⊢
      rw [hml]
      have hxmem := hown x hx
      by_cases hk : (st.cid x).toNat = (st.cid i).toNat
      · rw [hk, if_pos rfl]
        rw [← hk]
        exact List.mem_append_left _ hxmem
      · rw [if_neg hk]
        exact hxmem
  · -- no duplicates
    dsimp only [memberList]
    intro k
    rw [hml]
    by_cases hk : k = (st.cid i).toNat
    · rw [if_pos hk]
      rw [List.nodup_append]
      refine ⟨hnodup _, by simp, ?_⟩
      intro x hx1
      simp only [List.mem_singleton]
      intro hcon
      subst hcon
      exact hjnot _ hx1
    · rw [if_neg hk]
      exact hnodup k
  · -- connectivity characterization
    dsimp only
    intro x y hx hy
    rw [hcid' x] at hx
    rw [hcid' y] at hy
    rw [hcid' x, hcid' y]
    have hjE : ∀ z, ¬ E j z ∧ ¬ E z j := hunt j hciJ
    by_cases hxj : x = j <;> by_cases hyj : y = j
    · rw [if_pos hxj, if_pos hyj]
      refine iff_of_true rfl ?_
      rw [hxj, hyj]
      exact Conn.refl j
    · rw [if_pos hxj, if_neg hyj]
      rw [if_neg hyj] at hy
      rw [conn_addRel]
      constructor
      · intro heq
        refine Or.inr (Or.inr ⟨?_, (hiff i y hci hy).mp heq⟩)
        rw [hxj]
        exact Conn.refl j
      · intro hcase
        rcases hcase with h1 | ⟨h1, h2⟩ | ⟨h1, h2⟩
        · rw [hxj] at h1
          exact absurd (conn_untouched E j y hjE h1).symm hyj
        · exact absurd (conn_untouched E j y hjE h2).symm hyj
        · exact (hiff i y hci hy).mpr h2
    · rw [if_neg hxj, if_pos hyj]
      rw [if_neg hxj] at hx
      rw [conn_addRel]
      constructor
      · intro heq
        refine Or.inr (Or.inl ⟨(hiff x i hx hci).mp heq, ?_⟩)
        rw [hyj]
        exact Conn.refl j
      · intro hcase
        rcases hcase with h1 | ⟨h1, h2⟩ | ⟨h1, h2⟩
        · rw [hyj] at h1
          exact absurd (conn_untouched E j x hjE h1.symm).symm hxj
        · exact (hiff x i hx hci).mpr h1
        · exact absurd (conn_untouched E j x hjE h1.symm).symm hxj
    · rw [if_neg hxj, if_neg hyj]
      rw [if_neg hxj] at hx
      rw [if_neg hyj] at hy
      rw [conn_addRel]
      constructor
      · intro heq
        exact Or.inl ((hiff x y hx hy).mp heq)
      · intro hcase
        rcases hcase with h1 | ⟨h1, h2⟩ | ⟨h1, h2⟩
        · exact (hiff x y hx hy).mpr h1
        · exact absurd (conn_untouched E j y hjE h2).symm hyj
        · exact absurd (conn_untouched E j x hjE h1.symm).symm hxj
  · -- untouched part
    dsimp only
    intro x hx
    rw [hcid'] at hx
    have hxj : x ≠ j := by
      intro hcon
      rw [if_pos hcon] at hx
      exact hci hx
    rw [if_neg hxj] at hx
    have hxi : x ≠ i := by
      intro hcon
      subst hcon
      exact hci hx
    intro z
    have hu := hunt x hx z
    constructor
    · intro hcon
      rcases hcon with hc | ⟨hc1, _⟩
      · exact hu.1 hc
      · exact hxi hc1
    · intro hcon
      rcases hcon with hc | ⟨_, hc2⟩
      · exact hu.2 hc
      · exact hxj hc2
  · -- cid i preserved
    dsimp only
    rw [hcid', if_neg hij]
  · -- assigned birds stay assigned
    dsimp only
    intro x hx
    rw [hcid']
    have hxj : x ≠ j := by
      intro hcon
      subst hcon
      exact hx hciJ
    rw [if_neg hxj]
    exact hx

theorem pairStepB_props (n : ℕ) (E : ℕ → ℕ → Prop) (st : ClusterState) (i j : ℕ)
    (hci : st.cid i ≠ -1) (hciJ : st.cid j ≠ -1) (heq : st.cid j = st.cid i)
    (hinv : ClusterInv n st) (hconn : ConnInv E st) :
    ClusterInv n (clusterPairStep i j st) ∧ ConnInv (addRel E i j) (clusterPairStep i j st)
    ∧ (clusterPairStep i j st).cid i = st.cid i
    ∧ (∀ x, st.cid x ≠ -1 → (clusterPairStep i j st).cid x ≠ -1) := by
  obtain ⟨hiff, hunt⟩ := hconn
  rw [pairStep_eqB st i j hciJ heq]
  have hij_conn : Conn E i j := (hiff i j hci hciJ).mp heq.symm
  refine ⟨hinv, ⟨?_, ?_⟩, rfl, fun x hx => hx⟩
  · intro x y hx hy
    rw [conn_addRel]
    constructor
    · intro he
      exact Or.inl ((hiff x y hx hy).mp he)
    · intro hcase
      rcases hcase with h1 | ⟨h1, h2⟩ | ⟨h1, h2⟩
      · exact (hiff x y hx hy).mpr h1
      · exact (hiff x y hx hy).mpr (h1.trans (hij_conn.trans h2))
      · exact (hiff x y hx hy).mpr ((h1.trans hij_conn.symm).trans h2)
  · intro x hx z
    have hu := hunt x hx z
    refine ⟨?_, ?_⟩
    · rintro (hc | ⟨hc1, _⟩)
      · exact hu.1 hc
      · exact hci (hc1 ▸ hx)
    · rintro (hc | ⟨_, hc2⟩)
      · exact hu.2 hc
      · exact hciJ (hc2 ▸ hx)

theorem pairStepC_props (n : ℕ) (E : ℕ → ℕ → Prop) (st : ClusterState) (i j : ℕ)
    (hci : st.cid i ≠ -1) (hciJ : st.cid j ≠ -1) (hne : st.cid j ≠ st.cid i)
    (hinv : ClusterInv n st) (hconn : ConnInv E st) :
    ClusterInv n (clusterPairStep i j st) ∧ ConnInv (addRel E i j) (clusterPairStep i j st)
    ∧ (clusterPairStep i j st).cid i = st.cid i
    ∧ (∀ x, st.cid x ≠ -1 → (clusterPairStep i j st).cid x ≠ -1) := by
  have hinv' := hinv
  obtain ⟨hmax, hlen, hbound, hbmem, hown, hnodup⟩ := hinv
  obtain ⟨hiff, hunt⟩ := hconn
  rw [pairStep_eqC st i j hciJ hne]
  have hciB := hbound i hci
  have hcjB := hbound j hciJ
  have hti : ((st.cid i).toNat : ℤ) = st.cid i := Int.toNat_of_nonneg hciB.1
  have htj : ((st.cid j).toNat : ℤ) = st.cid j := Int.toNat_of_nonneg hcjB.1
  have htiLen : (st.cid i).toNat < st.assign.length := by omega
  have htjLen : (st.cid j).toNat < st.assign.length := by omega
  have htij : (st.cid i).toNat ≠ (st.cid j).toNat := by omega
  have hnodup' : ∀ k, (st.assign.getD k []).Nodup := hnodup
  have hmemJ : ∀ x, (x ∈ st.assign.getD (st.cid j).toNat []) ↔ st.cid x = st.cid j := by
    intro x
    have hmm := mem_memberList_iff n st hinv' (st.cid j).toNat x
    rw [memberList] at hmm
    rw [hmm, htj]
  have hcid' : ∀ x, (if x ∈ st.assign.getD (st.cid j).toNat []
        then ((st.cid i).toNat : ℤ) else st.cid x)
      = if st.cid x = st.cid j then st.cid i else st.cid x := by
    intro x
    by_cases hx : x ∈ st.assign.getD (st.cid j).toNat []
    · rw [if_pos hx, if_pos ((hmemJ x).mp hx), hti]
    · rw [if_neg hx, if_neg (fun hc => hx ((hmemJ x).mpr hc))]
  have hml : ∀ k, ((st.assign.set (st.cid i).toNat
        (st.assign.getD (st.cid i).toNat [] ++ st.assign.getD (st.cid j).toNat [])).set
        (st.cid j).toNat []).getD k []
      = if k = (st.cid j).toNat then []
        else if k = (st.cid i).toNat
          then st.assign.getD (st.cid i).toNat [] ++ st.assign.getD (st.cid j).toNat []
          else st.assign.getD k [] := by
    intro k
    by_cases hkj : k = (st.cid j).toNat
    · rw [if_pos hkj, hkj]
      exact getD_set_self _ _ _ (by rw [List.length_set]; exact htjLen)
    · rw [if_neg hkj, getD_set_ne _ _ _ _ hkj]
      by_cases hki : k = (st.cid i).toNat
      · rw [if_pos hki, hki]
        exact getD_set_self _ _ _ htiLen
      · rw [if_neg hki]
        exact getD_set_ne _ _ _ _ hki
  refine ⟨⟨hmax, by simpa using hlen, ?_, ?_, ?_, ?_⟩, ⟨?_, ?_⟩, ?_, ?_⟩
  · -- bounds
    dsimp only
    intro x hx
    rw [hcid' x] at hx ⊢
    by_cases hcx : st.cid x = st.cid j
    · rw [if_pos hcx] at hx ⊢
      have hx' : st.cid x ≠ -1 := by rw [hcx]; exact hciJ
      exact ⟨hciB.1, hciB.2.1, (hbound x hx').2.2⟩
    · rw [if_neg hcx] at hx ⊢
      exact hbound x hx
  · -- member lists carry their id
    dsimp only [memberList]
    intro k x hx
    rw [hml] at hx
    rw [hcid' x]
    by_cases hkj : k = (st.cid j).toNat
    · rw [if_pos hkj] at hx
      simp at hx
    · rw [if_neg hkj] at hx
      by_cases hki : k = (st.cid i).toNat
      · rw [if_pos hki] at hx
        rcases List.mem_append.mp hx with h1 | h2
        · have hcx := hbmem (st.cid i).toNat x h1
          have hne2 : st.cid x ≠ st.cid j := by
            rw [hcx, hti]
            exact fun hc => hne hc.symm
          rw [if_neg hne2, hki]
          exact hcx
        · have hcx := (hmemJ x).mp h2
          rw [if_pos hcx, hki]
          exact hti.symm
      · rw [if_neg hki] at hx
        have hcx := hbmem k x hx
        have hne2 : st.cid x ≠ st.cid j := by
          intro hc
          rw [hcx] at hc
          exact hkj (by omega)
        rw [if_neg hne2]
        exact hcx
  · -- each assigned bird occurs in its own list
    dsimp only [memberList]
    intro x hx
    rw [hcid' x] at hx ⊢
    rw [hml]
    by_cases hcx : st.cid x = st.cid j
    · rw [if_pos hcx] at hx ⊢
      rw [if_neg htij, if_pos rfl]
      exact List.mem_append_right _ ((hmemJ x).mpr hcx)
    · rw [if_neg hcx] at hx ⊢
      have hxo := hown x hx
      simp only [memberList] at hxo
      by_cases hkj : (st.cid x).toNat = (st.cid j).toNat
      · exfalso
        apply hcx
        have h0 : 0 ≤ st.cid x := (hbound x hx).1
        omega
      · rw [if_neg hkj]
        by_cases hki : (st.cid x).toNat = (st.cid i).toNat
        · rw [if_pos hki]
          rw [hki] at hxo
          exact List.mem_append_left _ hxo
        · rw [if_neg hki]
          exact hxo
  · -- no duplicates
    dsimp only [memberList]
    intro k
    rw [hml]
    by_cases hkj : k = (st.cid j).toNat
    · rw [if_pos hkj]
      simp
    · rw [if_neg hkj]
      by_cases hki : k = (st.cid i).toNat
      · rw [if_pos hki]
        rw [List.nodup_append]
        refine ⟨hnodup' _, hnodup' _, ?_⟩
        intro a ha hb
        have h1 := hbmem (st.cid i).toNat a ha
        have h2 := hbmem (st.cid j).toNat a hb
        rw [h1] at h2
        exact htij (by omega)
      · rw [if_neg hki]
        exact hnodup' k
  · -- connectivity characterization
    dsimp only
    intro x y hx hy
    rw [hcid' x] at hx
    rw [hcid' y] at hy
    rw [hcid' x, hcid' y]
    rw [conn_addRel]
    by_cases hcx : st.cid x = st.cid j <;> by_cases hcy : st.cid y = st.cid j
    · rw [if_pos hcx, if_pos hcy]
      have hx' : st.cid x ≠ -1 := by rw [hcx]; exact hciJ
      have hy' : st.cid y ≠ -1 := by rw [hcy]; exact hciJ
      exact iff_of_true rfl (Or.inl ((hiff x y hx' hy').mp (hcx.trans hcy.symm)))
    · rw [if_pos hcx, if_neg hcy]
      rw [if_neg hcy] at hy
      have hx' : st.cid x ≠ -1 := by rw [hcx]; exact hciJ
      constructor
      · intro heq
        exact Or.inr (Or.inr ⟨(hiff x j hx' hciJ).mp hcx, (hiff i y hci hy).mp heq⟩)
      · intro hcase
        rcases hcase with h1 | ⟨h1, h2⟩ | ⟨h1, h2⟩
        · exfalso
          have hc := (hiff x y hx' hy).mpr h1
          rw [hcx] at hc
          exact hcy hc.symm
        · exfalso
          have hc := (hiff j y hciJ hy).mpr h2
          exact hcy hc.symm
        · exact (hiff i y hci hy).mpr h2
    · rw [if_neg hcx, if_pos hcy]
      rw [if_neg hcx] at hx
      have hy' : st.cid y ≠ -1 := by rw [hcy]; exact hciJ
      constructor
      · intro heq
        exact Or.inr (Or.inl ⟨(hiff x i hx hci).mp heq, (hiff j y hciJ hy').mp hcy.symm⟩)
      · intro hcase
        rcases hcase with h1 | ⟨h1, h2⟩ | ⟨h1, h2⟩
        · exfalso
          have hc := (hiff x y hx hy').mpr h1
          rw [hcy] at hc
          exact hcx hc
        · exact (hiff x i hx hci).mpr h1
        · exfalso
          have hc := (hiff x j hx hciJ).mpr h1
          exact hcx hc
    · rw [if_neg hcx, if_neg hcy]
      rw [if_neg hcx] at hx
      rw [if_neg hcy] at hy
      constructor
      · intro heq
        exact Or.inl ((hiff x y hx hy).mp heq)
      · intro hcase
        rcases hcase with h1 | ⟨h1, h2⟩ | ⟨h1, h2⟩
        · exact (hiff x y hx hy).mpr h1
        · exfalso
          have hc := (hiff j y hciJ hy).mpr h2
          exact hcy hc.symm
        · exfalso
          have hc := (hiff x j hx hciJ).mpr h1
          exact hcx hc
  · -- untouched part
    dsimp only
    intro x hx
    rw [hcid' x] at hx
    have hcx : ¬ st.cid x = st.cid j := by
      intro hc
      rw [if_pos hc] at hx
      exact hci hx
    rw [if_neg hcx] at hx
    intro z
    have hu := hunt x hx z
    refine ⟨?_, ?_⟩
    · rintro (hc | ⟨hc1, _⟩)
      · exact hu.1 hc
      · exact hci (hc1 ▸ hx)
    · rintro (hc | ⟨_, hc2⟩)
      · exact hu.2 hc
      · exact hciJ (hc2 ▸ hx)
  · -- cid i preserved
    dsimp only
    rw [hcid' i, if_neg (fun hc => hne hc.symm)]
  · -- assigned birds stay assigned
    dsimp only
    intro x hx
    rw [hcid' x]
    by_cases hcx : st.cid x = st.cid j
    · rw [if_pos hcx]
      exact hci
    · rw [if_neg hcx]
      exact hx

/-- One clustering step preserves the partition invariant, tracks the new
edge in the connectivity invariant, and never unassigns a bird. -/
theorem pairStep_props (n : ℕ) (E : ℕ → ℕ → Prop) (st : ClusterState) (i j : ℕ)
    (hi : i < n) (hj : j < n) (hij : i ≠ j) (hci : st.cid i ≠ -1)
    (hinv : ClusterInv n st) (hconn : ConnInv E st) :
    ClusterInv n (clusterPairStep i j st) ∧ ConnInv (addRel E i j) (clusterPairStep i j st)
    ∧ (clusterPairStep i j st).cid i = st.cid i
    ∧ (∀ x, st.cid x ≠ -1 → (clusterPairStep i j st).cid x ≠ -1) := by
  by_cases hciJ : st.cid j = -1
  · exact pairStepA_props n E st i j hi hj hij hci hciJ hinv hconn
  · by_cases heq : st.cid j = st.cid i
    · exact pairStepB_props n E st i j hci hciJ heq hinv hconn
    · exact pairStepC_props n E st i j hci hciJ heq hinv hconn

theorem ConnInv_congr (r r' : ℕ → ℕ → Prop) (h : ∀ x y, r x y ↔ r' x y)
    (st : ClusterState) (hc : ConnInv r st) : ConnInv r' st := by
  obtain ⟨hiff, hunt⟩ := hc
  constructor
  · intro x y hx hy
    rw [hiff x y hx hy]
    exact conn_congr r r' h x y
  · intro x hx y
    have hu := hunt x hx y
    rw [h x y, h y x] at hu
    exact hu

theorem clusterFold_props (n : ℕ) (i : ℕ) (hi : i < n) (l : List ℕ)
    (hl : ∀ j ∈ l, j < n ∧ j ≠ i) (E : ℕ → ℕ → Prop) (cst : ClusterState)
    (hci : cst.cid i ≠ -1) (hinv : ClusterInv n cst) (hconn : ConnInv E cst) :
    ClusterInv n (clusterFold i cst l) ∧ ConnInv (fanRel E i l) (clusterFold i cst l)
    ∧ (∀ x, cst.cid x ≠ -1 → (clusterFold i cst l).cid x ≠ -1) := by
  induction l generalizing E cst with
  | nil =>
    refine ⟨hinv, ?_, fun x hx => hx⟩
    refine ConnInv_congr E _ ?_ _ hconn
    intro x y
    unfold fanRel
    simp
  | cons j t ih =>
    have hj := hl j (List.mem_cons_self j t)
    have hstep := pairStep_props n E cst i j hi hj.1 hj.2.symm hci hinv hconn
    have hunf : clusterFold i cst (j :: t) = clusterFold i (clusterPairStep i j cst) t := rfl
    rw [hunf]
    have hci' : (clusterPairStep i j cst).cid i ≠ -1 := by
      rw [hstep.2.2.1]
      exact hci
    have ih2 := ih (fun a ha => hl a (List.mem_cons_of_mem _ ha)) (addRel E i j)
      (clusterPairStep i j cst) hci' hstep.1 hstep.2.1
    refine ⟨ih2.1, ?_, fun x hx => ih2.2.2 x (hstep.2.2.2 x hx)⟩
    refine ConnInv_congr _ _ ?_ _ ih2.2.1
    intro x y
    unfold fanRel addRel
    constructor
    · rintro ((h | ⟨h1, h2⟩) | ⟨h1, h2⟩)
      · exact Or.inl h
      · refine Or.inr ⟨h1, ?_⟩
        rw [h2]
        exact List.mem_cons_self j t
      · exact Or.inr ⟨h1, List.mem_cons_of_mem _ h2⟩
    · rintro (h | ⟨h1, h2⟩)
      · exact Or.inl (Or.inl h)
      · rcases List.mem_cons.mp h2 with h3 | h3
        · exact Or.inl (Or.inr ⟨h1, h3⟩)
        · exact Or.inr ⟨h1, h3⟩

theorem candidate_fold_cluster_proj (P : Params) (pos : ℕ → Vec3) (fov : ℕ → ℕ → Bool)
    (i : ℕ) (l : List ℕ) (cst : ClusterState) (ns : NbrState) :
    (l.foldl (candidateStep P pos fov i) (cst, ns)).1
      = clusterFold i cst (l.filter (fun j => decide (distSq (pos i) (pos j) < P.thr2))) := by
  induction l generalizing cst ns with
  | nil => rfl
  | cons j t ih =>
    rw [List.foldl_cons, List.filter_cons]
    by_cases hd : distSq (pos i) (pos j) < P.thr2
    · rw [if_pos (by simpa using hd)]
      have hpair : candidateStep P pos fov i (cst, ns) j
          = (clusterPairStep i j cst, (candidateStep P pos fov i (cst, ns) j).2) := by
        unfold candidateStep
        dsimp only
        rw [if_pos hd]
      rw [hpair, ih]
      rfl
    · rw [if_neg (by simpa using hd)]
      have hpair : candidateStep P pos fov i (cst, ns) j
          = (cst, (candidateStep P pos fov i (cst, ns) j).2) := by
        unfold candidateStep
        dsimp only
        rw [if_neg hd]
      rw [hpair, ih]

theorem fedList_mem (c : SimCtx) (i j : ℕ) (h : j ∈ c.fedList i) :
    j < c.numPoints ∧ j ≠ i := by
  unfold SimCtx.fedList at h
  have hw := List.mem_of_mem_filter h
  exact (walk_mem c i j hw).2

theorem agent_cluster_props (c : SimCtx) (i : ℕ) (hi : i < c.numPoints)
    (st : ClusterState) (ns : NbrState)
    (hinv : ClusterInv c.numPoints st) (hconn : ConnInv (c.fedTo i) st) :
    ClusterInv c.numPoints (c.agent i st ns).1
    ∧ ConnInv (c.fedTo (i + 1)) (c.agent i st ns).1
    ∧ (c.agent i st ns).1.cid i ≠ -1
    ∧ (∀ x, st.cid x ≠ -1 → (c.agent i st ns).1.cid x ≠ -1) := by
  have hproj : (c.agent i st ns).1
      = clusterFold i (newClusterIfNone i st) (c.fedList i) := by
    show ((c.walk i).foldl (candidateStep c.prm c.pos c.fov i)
        (newClusterIfNone i st, { ns with sortNum := 0, rNbrs := 0 })).1
      = clusterFold i (newClusterIfNone i st) (c.fedList i)
    rw [candidate_fold_cluster_proj]
    rfl
  rw [hproj]
  have hnc := newCluster_facts c.numPoints st i hi hinv
  have hnconn := newCluster_conn c.numPoints (c.fedTo i) st i hinv hconn
  have hfold := clusterFold_props c.numPoints i hi (c.fedList i)
    (fun j hj => fedList_mem c i j hj) (c.fedTo i) (newClusterIfNone i st)
    hnc.2.1 hnc.1 hnconn
  have hcongr : ∀ x y, fanRel (c.fedTo i) i (c.fedList i) x y ↔ c.fedTo (i + 1) x y := by
    intro x y
    unfold fanRel SimCtx.fedTo
    constructor
    · rintro (⟨hx, hy⟩ | ⟨hx, hy⟩)
      · exact ⟨by omega, hy⟩
      · refine ⟨by omega, ?_⟩
        rw [hx]
        exact hy
    · rintro ⟨hx, hy⟩
      by_cases hxi : x = i
      · refine Or.inr ⟨hxi, ?_⟩
        rw [hxi] at hy
        exact hy
      · exact Or.inl ⟨by omega, hy⟩
  refine ⟨hfold.1, ConnInv_congr _ _ hcongr _ hfold.2.1, ?_, ?_⟩
  · -- bird i is assigned: newClusterIfNone assigns it, the fold keeps it
    exact hfold.2.2 i hnc.2.1
  · intro x hx
    apply hfold.2.2
    rw [hnc.2.2.1 x hx]
    exact hx

theorem initial_cluster_props (c : SimCtx) :
    ClusterInv c.numPoints initialClusterState
    ∧ ConnInv (c.fedTo 0) initialClusterState := by
  refine ⟨⟨?_, ?_, ?_, ?_, ?_, ?_⟩, ?_, ?_⟩
  · dsimp [initialClusterState]
    omega
  · dsimp [initialClusterState]
  · intro x hx
    exact absurd rfl hx
  · intro k x hx
    simp [initialClusterState, memberList] at hx
  · intro x hx
    exact absurd rfl hx
  · intro k
    simp [initialClusterState, memberList]
  · intro x y hx _
    exact absurd rfl hx
  · intro x _ y
    unfold SimCtx.fedTo
    constructor
    · rintro ⟨h, _⟩
      omega
    · rintro ⟨h, _⟩
      omega

theorem fnLoop_cluster (c : SimCtx) (k : ℕ) :
    ∀ (m : ℕ) (st : ClusterState) (ns : NbrState),
    ClusterInv c.numPoints st → ConnInv (c.fedTo m) st →
    (∀ x, x < m → st.cid x ≠ -1) → m + k ≤ c.numPoints →
    ClusterInv c.numPoints (fnLoop c (List.range' m k) st ns).1
    ∧ ConnInv (c.fedTo (m + k)) (fnLoop c (List.range' m k) st ns).1
    ∧ (∀ x, x < m + k → (fnLoop c (List.range' m k) st ns).1.cid x ≠ -1) := by
  induction k with
  | zero =>
    intro m st ns hinv hconn hass _
    exact ⟨hinv, hconn, hass⟩
  | succ k ih =>
    intro m st ns hinv hconn hass hle
    have hm : m < c.numPoints := by omega
    have hrange : List.range' m (k + 1) = m :: List.range' (m + 1) k := List.range'_succ m k 1
    rw [hrange]
    have hag := agent_cluster_props c m hm st ns hinv hconn
    have hstep : (fnLoop c (m :: List.range' (m + 1) k) st ns).1
        = (fnLoop c (List.range' (m + 1) k) (c.agent m st ns).1 (c.agent m st ns).2.1).1 := rfl
    rw [hstep]
    have hass' : ∀ x, x < m + 1 → (c.agent m st ns).1.cid x ≠ -1 := by
      intro x hx
      by_cases hxm : x = m
      · rw [hxm]
        exact hag.2.2.1
      · exact hag.2.2.2 x (hass x (by omega))
    have hrec := ih (m + 1) (c.agent m st ns).1 (c.agent m st ns).2.1
      hag.1 hag.2.1 hass' (by omega)
    have harith : m + (k + 1) = (m + 1) + k := by omega
    rw [harith]
    exact hrec

theorem runFindNeighbors_cluster (c : SimCtx) :
    ClusterInv c.numPoints (runFindNeighbors c).1
    ∧ ConnInv (c.fedTo c.numPoints) (runFindNeighbors c).1
    ∧ (∀ x, x < c.numPoints → (runFindNeighbors c).1.cid x ≠ -1) := by
  unfold runFindNeighbors
  rw [List.range_eq_range' c.numPoints]
  have hrec := fnLoop_cluster c c.numPoints 0 initialClusterState initialNbrState
    (initial_cluster_props c).1 (initial_cluster_props c).2
    (fun x hx => absurd hx (by omega)) (by omega)
  simpa using hrec

theorem eqRel_ConnInv (st : ClusterState) :
    ConnInv (fun x y => st.cid x ≠ -1 ∧ st.cid y ≠ -1 ∧ st.cid x = st.cid y) st := by
  constructor
  · intro x y hx hy
    constructor
    · intro he
      exact Conn.base ⟨hx, hy, he⟩
    · intro hc
      have key : ∀ a b, Conn (fun x y => st.cid x ≠ -1 ∧ st.cid y ≠ -1 ∧ st.cid x = st.cid y) a b
          → a = b ∨ st.cid a = st.cid b := by
        intro a b h
        induction h with
        | base hr => exact Or.inr hr.2.2
        | refl z => exact Or.inl rfl
        | symm _ ih =>
          rcases ih with h1 | h1
          · exact Or.inl h1.symm
          · exact Or.inr h1.symm
        | trans _ _ ih1 ih2 =>
          rcases ih1 with h1 | h1 <;> rcases ih2 with h2 | h2
          · exact Or.inl (h1.trans h2)
          · exact Or.inr (h1 ▸ h2)
          · exact Or.inr (h2 ▸ h1)
          · exact Or.inr (h1.trans h2)
      rcases key x y hc with h1 | h1
      · rw [h1]
      · exact h1
  · intro x hx y
    exact ⟨fun hc => hc.1 hx, fun hc => hc.2.1 hx⟩

/-- Under the invariant, when every bird below `n` is assigned, the
concatenation of the member lists is duplicate-free and holds exactly the
bird indices below `n`. -/
theorem partition_flatten (n : ℕ) (st : ClusterState) (hinv : ClusterInv n st)
    (hall : ∀ x, x < n → st.cid x ≠ -1) :
    st.assign.flatten.Nodup ∧ (∀ x, x ∈ st.assign.flatten ↔ x < n) := by
  have hinv' := hinv
  obtain ⟨hmax, hlen, hbound, hbmem, hown, hnodup⟩ := hinv
  have hmemk : ∀ k, k < st.assign.length → memberList st k = st.assign.getD k [] := by
    intro k _
    rfl
  constructor
  · rw [List.nodup_flatten]
    constructor
    · intro s hs
      obtain ⟨k, hk, hks⟩ := List.getElem_of_mem hs
      have : memberList st k = s := by
        rw [memberList, List.getD_eq_getElem st.assign [] hk, hks]
      rw [← this]
      exact hnodup k
    · rw [List.pairwise_iff_getElem]
      intro a b ha hb hab x hxa hxb
      have hma : x ∈ memberList st a := by
        rw [memberList, List.getD_eq_getElem st.assign [] ha]
        exact hxa
      have hmb : x ∈ memberList st b := by
        rw [memberList, List.getD_eq_getElem st.assign [] hb]
        exact hxb
      have h1 := hbmem a x hma
      have h2 := hbmem b x hmb
      rw [h1] at h2
      omega
  · intro x
    constructor
    · intro hx
      obtain ⟨s, hs, hxs⟩ := List.mem_flatten.mp hx
      obtain ⟨k, hk, hks⟩ := List.getElem_of_mem hs
      have hmk : x ∈ memberList st k := by
        rw [memberList, List.getD_eq_getElem st.assign [] hk, hks]
        exact hxs
      have hcx := hbmem k x hmk
      have hne : st.cid x ≠ -1 := by omega
      exact (hbound x hne).2.2
    · intro hx
      have hne := hall x hx
      have hmem := hown x hne
      have hb := hbound x hne
      have hklt : (st.cid x).toNat < st.assign.length := by omega
      apply List.mem_flatten.mpr
      refine ⟨st.assign[(st.cid x).toNat], List.getElem_mem hklt, ?_⟩
      rw [memberList, List.getD_eq_getElem st.assign [] hklt] at hmem
      exact hmem

theorem fedTo_sub_prox (c : SimCtx) (x y : ℕ) (h : c.fedTo c.numPoints x y) :
    c.proxRel x y := by
  obtain ⟨hx, hy⟩ := h
  have hm := fedList_mem c x y hy
  have hd : distSq (c.pos x) (c.pos y) < c.prm.thr2 := by
    unfold SimCtx.fedList at hy
    have := List.of_mem_filter hy
    simpa using this
  exact ⟨hx, hm.1, hd⟩

/-! ### The reported clustering claims (C3, C4) and the histogram (C9) -/

/-- Claim C3: after the clustering pass of `FindNeighbors` completes on any
population, every bird carries a cluster id (the unassigned sentinel `-1`
survives nowhere), the member lists of `cluster_assignment` concatenate to
the full index set with no index appearing twice — a set partition of the
population — and every merge step of two clusters preserves the partition
invariant. -/
theorem C3_cluster_partition (c : SimCtx) :
    (∀ i, i < c.numPoints → (runFindNeighbors c).1.cid i ≠ -1)
    ∧ (runFindNeighbors c).1.assign.flatten.Nodup
    ∧ (∀ x, x ∈ (runFindNeighbors c).1.assign.flatten ↔ x < c.numPoints)
    ∧ (∀ (n i j : ℕ) (st : ClusterState), i < n → j < n → st.cid i ≠ -1 →
        ClusterInv n st → ClusterInv n (clusterPairStep i j st)) := by
  obtain ⟨hinv, hconn, hall⟩ := runFindNeighbors_cluster c
  have hpart := partition_flatten c.numPoints (runFindNeighbors c).1 hinv hall
  refine ⟨hall, hpart.1, hpart.2, ?_⟩
  intro n i j st hi hj hci hinv'
  by_cases hij : i = j
  · have heq : st.cid j = st.cid i := by rw [hij]
    have hciJ : st.cid j ≠ -1 := by
      rw [← hij]
      exact hci
    rw [pairStep_eqB st i j hciJ heq]
    exact hinv'
  · exact (pairStep_props n _ st i j hi hj hij hci hinv' (eqRel_ConnInv st)).1

/-- Claim C4, amended: after one step's clustering completes, two birds
carry the same cluster id exactly when they are connected by the pairs the
cell walks actually fed to the clustering step (`fedTo`); since every fed
pair is below the clustering threshold, birds with no proximity path still
always end in different clusters.  The original claim's forward direction —
below-threshold distance alone forces a shared id — is false: the walk
never feeds pairs whose cells the grid builder discarded
(`C4_counterexample`). -/
theorem C4_clusters_connected_components (c : SimCtx) (i j : ℕ)
    (hi : i < c.numPoints) (hj : j < c.numPoints) :
    ((runFindNeighbors c).1.cid i = (runFindNeighbors c).1.cid j
      ↔ Conn (c.fedTo c.numPoints) i j)
    ∧ (¬ Conn c.proxRel i j
      → (runFindNeighbors c).1.cid i ≠ (runFindNeighbors c).1.cid j) := by
  obtain ⟨hinv, hconn, hall⟩ := runFindNeighbors_cluster c
  have hiff := hconn.1 i j (hall i hi) (hall j hj)
  refine ⟨hiff, ?_⟩
  intro hnp heq
  apply hnp
  exact conn_mono _ _ (fedTo_sub_prox c) i j (hiff.mp heq)

/-- Counterexample to claim C4 as stated: in `ctxU` the two birds are half
a unit apart — below the clustering threshold `3/2` — yet the pass leaves
them in different clusters, because both positions land in a boundary cell
that `InsertIntoGrid` marks `GRID_UNDEF`, so no cell walk ever feeds the
pair to the clustering step. -/
theorem C4_counterexample :
    distSq (ctxU.pos 0) (ctxU.pos 1) < ctxU.prm.thr2
    ∧ (runFindNeighbors ctxU).1.cid 0 ≠ (runFindNeighbors ctxU).1.cid 1 := by
  constructor
  · with_unfolding_all decide
  · with_unfolding_all decide

theorem C4_clusters_connected_components_witness :
    0 < ctxU.numPoints ∧ 1 < ctxU.numPoints
    ∧ (((runFindNeighbors ctxU).1.cid 0 = (runFindNeighbors ctxU).1.cid 1
        ↔ Conn (ctxU.fedTo ctxU.numPoints) 0 1)
      ∧ (¬ Conn ctxU.proxRel 0 1
        → (runFindNeighbors ctxU).1.cid 0 ≠ (runFindNeighbors ctxU).1.cid 1)) :=
  ⟨by decide, by decide,
    C4_clusters_connected_components ctxU 0 1 (by decide) (by decide)⟩

theorem histAbove_trans (a b c : Histogram) (h1 : histAbove a b = true)
    (h2 : histAbove b c = true) : histAbove a c = true := by
  unfold histAbove at *
  simp only [Bool.or_eq_true, Bool.and_eq_true, decide_eq_true_eq] at *
  omega

theorem histAbove_total (a b : Histogram) : (histAbove a b || histAbove b a) = true := by
  unfold histAbove
  simp only [Bool.or_eq_true, Bool.and_eq_true, decide_eq_true_eq]
  omega

theorem histAbove_antisymm (a b : Histogram) (h1 : histAbove a b = true)
    (h2 : histAbove b a = true) : a = b := by
  unfold histAbove at h1 h2
  simp only [Bool.or_eq_true, Bool.and_eq_true, decide_eq_true_eq] at h1 h2
  obtain ⟨ai, ac⟩ := a
  obtain ⟨bi, bc⟩ := b
  simp only [Histogram.mk.injEq]
  simp only at h1 h2
  omega

theorem sortedHistogram_sorted (assign : List (List ℕ)) :
    (sortedHistogram assign).Sorted (fun a b => histAbove a b = true) :=
  @List.sorted_mergeSort _ histAbove histAbove_trans histAbove_total (calcHistogram assign)

set_option maxRecDepth 100000 in
theorem calcHistogramT :
    calcHistogram (runFindNeighbors ctxT).1.assign
      = [⟨0, 0⟩, ⟨1, 3⟩, ⟨2, 1⟩, ⟨3, 1⟩, ⟨4, 1⟩, ⟨5, 1⟩, ⟨6, 1⟩, ⟨7, 1⟩] := by
  with_unfolding_all decide

theorem sortedHistogramT_eq :
    sortedHistogram (runFindNeighbors ctxT).1.assign = histListT := by
  have hperm : (sortedHistogram (runFindNeighbors ctxT).1.assign).Perm histListT := by
    have h1 : (sortedHistogram (runFindNeighbors ctxT).1.assign).Perm
        (calcHistogram (runFindNeighbors ctxT).1.assign) :=
      List.mergeSort_perm _ _
    rw [calcHistogramT] at h1
    exact h1.trans (by decide)
  haveI : IsAntisymm Histogram (fun a b => histAbove a b = true) := ⟨histAbove_antisymm⟩
  have hs1 := sortedHistogram_sorted (runFindNeighbors ctxT).1.assign
  have hs2 : histListT.Sorted (fun a b => histAbove a b = true) := by decide
  exact List.eq_of_perm_of_sorted hperm hs1 hs2

/-- Claim C9 (code bug evidence): on the nine-bird population `ctxT` a
merge empties cluster 0, `CalculateClusters` keeps the empty cluster in its
histogram, the descending sort puts it in slot `MAX_FLOCKS - 1 = 7`, and
the division `flock_centers[i] /= cluster_histogram.at(i).bird_cnt` that
`UpdateFlockData` applies unconditionally to every slot `i < MAX_FLOCKS`
there divides by `0`. -/
theorem C9_zero_divisor_evidence :
    flockCenterDivisor (sortedHistogram (runFindNeighbors ctxT).1.assign) (MAX_FLOCKS - 1)
      = some 0 := by
  rw [sortedHistogramT_eq]
  rfl

theorem C1_counting_sort_buckets_witness :
    2 ≤ accT.gridSrch
    ∧ (((cellList accT posListT)[0]? = some (some 31) ↔
        ∃ s, offFun accT posListT 31 ≤ s ∧ s < offFun accT posListT 31 + cntFun accT posListT 31 ∧
          masterGrid accT posListT s = some 0) ∧
      (∀ s s', masterGrid accT posListT s = some 0 → masterGrid accT posListT s' = some 0 →
        s = s')) :=
  ⟨by decide, C1_counting_sort_buckets accT posListT (by decide) 31 0⟩

theorem C2_offsets_exclusive_scan_witness :
    2 ≤ accT.gridSrch ∧ 0 < accT.gridTotal
    ∧ ((offList accT posListT)[0]? = some 0 ∧
      (∀ c : ℤ, 0 ≤ c → c + 1 < accT.gridTotal →
        offFun accT posListT (c + 1) = offFun accT posListT c + cntFun accT posListT c) ∧
      offFun accT posListT (accT.gridTotal - 1) + cntFun accT posListT (accT.gridTotal - 1)
        = definedCount (cellList accT posListT)) :=
  ⟨by decide, by decide, C2_offsets_exclusive_scan accT posListT (by decide) (by decide)⟩

theorem C10_insertion_touched_bounds_witness :
    ctxT.prm.neighbors ≤ 15
    ∧ (((((ctxT.walk 0).take 3).foldl (candidateStep ctxT.prm ctxT.pos ctxT.fov 0)
        (initialClusterState, { initialNbrState with sortNum := 0, rNbrs := 0 })).2).sortNum
          ≤ ctxT.prm.neighbors ∧
      (∀ idx ∈ nbrInsertTouched
          ((((ctxT.walk 0).take 3).foldl (candidateStep ctxT.prm ctxT.pos ctxT.fov 0)
            (initialClusterState, { initialNbrState with sortNum := 0, rNbrs := 0 })).2)
          (distSq (ctxT.pos 0) (ctxT.pos 1)), idx ≤ 15)) :=
  ⟨by decide,
    C10_insertion_touched_bounds ctxT 0 3 initialClusterState initialNbrState 1 (by decide)⟩

end Flock2
